import Mathlib

/-!
Verification of the email-cleanup agent (src/email_cleanup/agent.py).

The development shallowly embeds the core of the agent:
  * `normalize_body`            — the text normalisation pipeline (agent.py:42-57)
  * `ratioF`                    — difflib.SequenceMatcher ratio, as used on lines 65 and 129
  * `are_bodies_similar`        — agent.py:59-69
  * `save_learned_patterns` / `load_learned_patterns` — agent.py:71-104
  * `detRun` (find_and_remove_duplicates, per-folder scan) — agent.py:106-197
  * `retRun` (retain_most_recent_emails, single folder pass) — agent.py:201-238
  * `walkTrace` (process_folder / the recursive structure of both walkers) — agent.py:240-257

Modelling conventions:
  * Python floats are modelled as exact non-negative rationals, represented by
    numerator/denominator pairs (`Frac`) compared by cross multiplication, so
    that every value is kernel-computable.  Every numeric value appearing in
    the program is a ratio of small integers, and every concrete threshold
    used below is exactly representable as a binary float, so the comparisons
    performed by the program coincide with the exact rational ones.
  * difflib.SequenceMatcher is modelled without the autojunk heuristic, which
    is inactive for all sequences shorter than 200 elements; every concrete
    input in this file is far below that bound.
  * Strings are modelled over their character lists; the regex character
    classes (\d, \s, \w) are modelled over their ASCII fragments, which cover
    every character class membership the program's regexes test on the inputs
    considered here.
-/

set_option maxRecDepth 40000

namespace EmailCleanup

/-- A calendar day, the result of `message.ReceivedTime.date()`. -/
structure Date where
  year : Nat
  month : Nat
  day : Nat
deriving DecidableEq

/-- A full timestamp (`message.ReceivedTime`): the calendar day plus a
time-of-day; Python datetimes compare lexicographically on these fields. -/
structure Timestamp where
  day : Date
  tod : Nat
deriving DecidableEq

/-- `t1 < t2` for Python datetime values (lexicographic). -/
def tsLt (t1 t2 : Timestamp) : Bool :=
  (t1.day.year < t2.day.year) ||
  (t1.day.year = t2.day.year && t1.day.month < t2.day.month) ||
  (t1.day.year = t2.day.year && t1.day.month = t2.day.month && t1.day.day < t2.day.day) ||
  (t1.day = t2.day && t1.tod < t2.tod)

/-- A mail message, with the four properties the agent reads. -/
structure Msg where
  subject : String
  sender : String
  received : Timestamp
  body : String
deriving DecidableEq

/-- The identity key `(message.Subject, message.SenderName, message.ReceivedTime.date())`
(agent.py:117). -/
abbrev Key := String × String × Date

def Msg.key (m : Msg) : Key := (m.subject, m.sender, m.received.day)

/-!  ## Python values and their textual round trip

The learned-pattern dictionaries are keyed by Python tuples whose components
are strings and `datetime.date` objects.  `save_learned_patterns` turns each
key into text with `str(key)` and `load_learned_patterns` re-parses that text
with `ast.literal_eval`.  We model the text by the expression tree Python's
parser produces from it: `repr` of a `datetime.date` is the *call* expression
`datetime.date(y, m, d)`, and `ast.literal_eval` raises `ValueError` on any
call node.  Tuples in this program have arity 2 or 3 only, so the value and
expression types below carry exactly those arities. -/

/-- Python runtime values appearing as dict keys/values in the agent. -/
inductive PyVal where
  | vstr (s : String)
  | vnat (n : Nat)
  | vbool (b : Bool)
  | vdate (y m d : Nat)
  | vtup2 (a b : PyVal)
  | vtup3 (a b c : PyVal)
deriving DecidableEq

/-- The expression tree of `str(v)` for a Python value `v`, as Python's own
parser would read the text back.  `pcall` is a function-call node. -/
inductive PyAst where
  | pstr (s : String)
  | pnat (n : Nat)
  | pbool (b : Bool)
  | pcall (fn : String) (a b c : PyAst)
  | ptup2 (a b : PyAst)
  | ptup3 (a b c : PyAst)
deriving DecidableEq

/-- `str(v)` (equivalently `repr(v)`), viewed as the expression tree of the
produced text: `repr` of a date is the call text `datetime.date(y, m, d)`. -/
def pyRepr : PyVal → PyAst
  | .vstr s => .pstr s
  | .vnat n => .pnat n
  | .vbool b => .pbool b
  | .vdate y m d => .pcall "datetime.date" (.pnat y) (.pnat m) (.pnat d)
  | .vtup2 a b => .ptup2 (pyRepr a) (pyRepr b)
  | .vtup3 a b c => .ptup3 (pyRepr a) (pyRepr b) (pyRepr c)

/-- `ast.literal_eval` on an expression tree: literals and tuples of literals
evaluate; a call node (such as the `datetime.date(...)` text) raises
`ValueError`, modelled as `none`. -/
def litEval : PyAst → Option PyVal
  | .pstr s => some (.vstr s)
  | .pnat n => some (.vnat n)
  | .pbool b => some (.vbool b)
  | .pcall _ _ _ _ => none
  | .ptup2 a b =>
      match litEval a, litEval b with
      | some x, some y => some (.vtup2 x y)
      | _, _ => none
  | .ptup3 a b c =>
      match litEval a, litEval b, litEval c with
      | some x, some y, some z => some (.vtup3 x y z)
      | _, _, _ => none

/-- The Python value of an identity key tuple. -/
def keyVal (k : Key) : PyVal :=
  .vtup3 (.vstr k.1) (.vstr k.2.1) (.vdate k.2.2.year k.2.2.month k.2.2.day)

/-- The Python value of a `(key, key)` pair used in `non_duplicates`. -/
def pairVal (k1 k2 : Key) : PyVal := .vtup2 (keyVal k1) (keyVal k2)

/-!  ## Python dicts as insertion-ordered association lists -/

/-- Dict lookup (first entry whose key equals `k`). -/
def dictFind {κ α : Type} [DecidableEq κ] (k : κ) : List (κ × α) → Option α
  | [] => none
  | (k', v) :: rest => if k' = k then some v else dictFind k rest

/-- `d[k] = v`: replace the value in place if the key is present, else append
(insertion-ordered, as Python dicts are). -/
def dictInsert {κ α : Type} [DecidableEq κ] (k : κ) (v : α) : List (κ × α) → List (κ × α)
  | [] => [(k, v)]
  | (k', v') :: rest =>
      if k' = k then (k', v) :: rest else (k', v') :: dictInsert k v rest

/-- `k in d`. -/
def containsKey {κ α : Type} [DecidableEq κ] (k : κ) (l : List (κ × α)) : Bool :=
  (dictFind k l).isSome

/-- The in-memory learned patterns: `duplicates` maps key tuples to normalized
bodies, `non_duplicates` maps pairs of key tuples to booleans (agent.py:71-104,
121-181). -/
structure Patterns where
  duplicates : List (PyVal × String)
  nonDuplicates : List (PyVal × Bool)
deriving DecidableEq

def emptyPatterns : Patterns := ⟨[], []⟩

/-- The persisted JSON document: both mappings with stringified keys
(`{str(key): value ...}`, agent.py:97-100). -/
structure PatternsFile where
  duplicates : List (PyAst × String)
  nonDuplicates : List (PyAst × Bool)
deriving DecidableEq

/-- `save_learned_patterns` (agent.py:92-104): serialize both mappings,
stringifying every key. -/
def save_learned_patterns (p : Patterns) : PatternsFile :=
  { duplicates := p.duplicates.map (fun kv => (pyRepr kv.1, kv.2)),
    nonDuplicates := p.nonDuplicates.map (fun kv => (pyRepr kv.1, kv.2)) }

/-- Decode one mapping with `ast.literal_eval` applied to every key; the first
failure aborts the whole comprehension (exception semantics). -/
def decodeEntries {α : Type} : List (PyAst × α) → Option (List (PyVal × α))
  | [] => some []
  | (a, v) :: rest =>
      match litEval a with
      | none => none
      | some k =>
          match decodeEntries rest with
          | none => none
          | some tail => some ((k, v) :: tail)

/-- `load_learned_patterns` (agent.py:71-90) reading a file previously written
by `save_learned_patterns`: both dict comprehensions run `ast.literal_eval` on
every key; a `ValueError`/`SyntaxError` from either is caught and the function
returns two empty mappings. -/
def load_learned_patterns (f : PatternsFile) : Patterns :=
  match decodeEntries f.duplicates, decodeEntries f.nonDuplicates with
  | some d, some n => ⟨d, n⟩
  | _, _ => emptyPatterns

/-!  ## Text normalisation (`normalize_body`, agent.py:42-57)

Each `re.sub` of the source is one pass below, in source order:
timestamp removal, whitespace collapse, URL removal, special-character
removal, lowercasing, short-word removal, and a final `strip()`. -/

/-- `\d` (ASCII). -/
def isDigitCh (c : Char) : Bool := '0' ≤ c && c ≤ '9'

/-- `\s`: Python's whitespace class, ASCII fragment. -/
def isPySpace (c : Char) : Bool :=
  c = ' ' || c = '\t' || c = '\n' || c = '\x0d' || c = '\x0b' || c = '\x0c'

/-- `[a-zA-Z0-9]`. -/
def isAsciiAlnum (c : Char) : Bool :=
  ('a' ≤ c && c ≤ 'z') || ('A' ≤ c && c ≤ 'Z') || ('0' ≤ c && c ≤ '9')

/-- `\w` = `[a-zA-Z0-9_]`. -/
def isWordChar (c : Char) : Bool := isAsciiAlnum c || c = '_'

/-- `str.lower` on the ASCII range (the only characters reaching the
lowercasing pass, which runs after special-character removal). -/
def asciiLower (c : Char) : Char :=
  if 'A' ≤ c && c ≤ 'Z' then Char.ofNat (c.toNat + 32) else c

/-- Does the 19-character timestamp pattern
`\d{4}-\d{2}-\d{2} \d{2}:\d{2}:\d{2}` match at the head of the list? -/
def matchTS : List Char → Bool
  | c1 :: c2 :: c3 :: c4 :: c5 :: c6 :: c7 :: c8 :: c9 :: c10 :: c11 :: c12 :: c13 ::
      c14 :: c15 :: c16 :: c17 :: c18 :: c19 :: _ =>
      isDigitCh c1 && isDigitCh c2 && isDigitCh c3 && isDigitCh c4 && c5 = '-' &&
      isDigitCh c6 && isDigitCh c7 && c8 = '-' && isDigitCh c9 && isDigitCh c10 &&
      c11 = ' ' && isDigitCh c12 && isDigitCh c13 && c14 = ':' && isDigitCh c15 &&
      isDigitCh c16 && c17 = ':' && isDigitCh c18 && isDigitCh c19
  | _ => false

/-- The scan of `re.sub(r'\d{4}-\d{2}-\d{2} \d{2}:\d{2}:\d{2}', '', body)`:
remove each 19-character match, resume after it.  Structurally recursive on a
fuel bound; the wrapper `rmTS` supplies the canonical fuel (the list length,
which the scan never exhausts). -/
def rmTSF : Nat → List Char → List Char
  | 0, l => l
  | _, [] => []
  | fuel + 1, c :: cs => if matchTS (c :: cs) then rmTSF fuel (cs.drop 18) else c :: rmTSF fuel cs

def rmTS (l : List Char) : List Char := rmTSF l.length l

theorem rmTSF_fuel : ∀ f1 f2 (l : List Char), l.length ≤ f1 → l.length ≤ f2 →
    rmTSF f1 l = rmTSF f2 l := by
  intro f1
  induction f1 with
  | zero =>
      intro f2 l h1 _
      have : l = [] := List.length_eq_zero.mp (Nat.le_zero.mp h1)
      subst this
      cases f2 <;> rfl
  | succ f ih =>
      intro f2 l h1 h2
      match l, f2 with
      | [], g => cases g <;> rfl
      | c :: cs, g + 1 =>
          simp only [rmTSF]
          split
          · apply ih
            · have := List.length_drop 18 cs
              simp only [List.length_cons] at h1
              omega
            · have := List.length_drop 18 cs
              simp only [List.length_cons] at h2
              omega
          · rw [ih g cs (by simp at h1; omega) (by simp at h2; omega)]

theorem rmTS_nil : rmTS [] = [] := rfl

theorem rmTS_cons (c : Char) (cs : List Char) :
    rmTS (c :: cs) = if matchTS (c :: cs) then rmTS (cs.drop 18) else c :: rmTS cs := by
  show rmTSF (c :: cs).length (c :: cs) = _
  simp only [List.length_cons, rmTSF]
  split
  · exact rmTSF_fuel _ _ _ (by have := List.length_drop 18 cs; omega) le_rfl
  · rfl

/-- The scan of `re.sub(r'\s+', ' ', body)`: each maximal whitespace run
becomes one space. -/
def collapseWSF : Nat → List Char → List Char
  | 0, l => l
  | _, [] => []
  | fuel + 1, c :: cs =>
      if isPySpace c then ' ' :: collapseWSF fuel (cs.dropWhile isPySpace)
      else c :: collapseWSF fuel cs

def collapseWS (l : List Char) : List Char := collapseWSF l.length l

theorem collapseWSF_fuel : ∀ f1 f2 (l : List Char), l.length ≤ f1 → l.length ≤ f2 →
    collapseWSF f1 l = collapseWSF f2 l := by
  intro f1
  induction f1 with
  | zero =>
      intro f2 l h1 _
      have : l = [] := List.length_eq_zero.mp (Nat.le_zero.mp h1)
      subst this
      cases f2 <;> rfl
  | succ f ih =>
      intro f2 l h1 h2
      match l, f2 with
      | [], g => cases g <;> rfl
      | c :: cs, g + 1 =>
          simp only [collapseWSF]
          have hd := (List.dropWhile_sublist (l := cs) isPySpace).length_le
          simp only [List.length_cons] at h1 h2
          split
          · rw [ih g (cs.dropWhile isPySpace) (by omega) (by omega)]
          · rw [ih g cs (by omega) (by omega)]

theorem collapseWS_nil : collapseWS [] = [] := rfl

theorem collapseWS_cons (c : Char) (cs : List Char) :
    collapseWS (c :: cs) =
      if isPySpace c then ' ' :: collapseWS (cs.dropWhile isPySpace)
      else c :: collapseWS cs := by
  show collapseWSF (c :: cs).length (c :: cs) = _
  simp only [List.length_cons, collapseWSF]
  have hd := (List.dropWhile_sublist (l := cs) isPySpace).length_le
  split
  · rw [collapseWSF_fuel cs.length _ _ (by omega) le_rfl]; rfl
  · rfl

/-- Length of the match of `http\S+` at the head of the list (0 when there is
no match here): the literal `http` followed by at least one non-space, the
`\S+` being greedy. -/
def httpLen (l : List Char) : Nat :=
  match l with
  | 'h' :: 't' :: 't' :: 'p' :: rest =>
      if (rest.takeWhile (fun x => !isPySpace x)).length = 0 then 0
      else 4 + (rest.takeWhile (fun x => !isPySpace x)).length
  | _ => 0

theorem httpLen_le (l : List Char) : httpLen l ≤ l.length := by
  unfold httpLen
  split
  · rename_i rest
    have h1 := (List.takeWhile_sublist (l := rest) (fun x => !isPySpace x)).length_le
    simp only [List.length_cons]
    split <;> omega
  · exact Nat.zero_le _

/-- The scan of `re.sub(r'http\S+', '', body)`. -/
def rmURLF : Nat → List Char → List Char
  | 0, l => l
  | _, [] => []
  | fuel + 1, c :: cs =>
      if httpLen (c :: cs) = 0 then c :: rmURLF fuel cs
      else rmURLF fuel ((c :: cs).drop (httpLen (c :: cs)))

def rmURL (l : List Char) : List Char := rmURLF l.length l

theorem rmURLF_fuel : ∀ f1 f2 (l : List Char), l.length ≤ f1 → l.length ≤ f2 →
    rmURLF f1 l = rmURLF f2 l := by
  intro f1
  induction f1 with
  | zero =>
      intro f2 l h1 _
      have : l = [] := List.length_eq_zero.mp (Nat.le_zero.mp h1)
      subst this
      cases f2 <;> rfl
  | succ f ih =>
      intro f2 l h1 h2
      match l, f2 with
      | [], g => cases g <;> rfl
      | c :: cs, g + 1 =>
          simp only [rmURLF]
          simp only [List.length_cons] at h1 h2
          split
          · rw [ih g cs (by omega) (by omega)]
          · rename_i hne
            have hb := httpLen_le (c :: cs)
            simp only [List.length_cons] at hb
            apply ih
            · simp only [List.length_drop, List.length_cons]; omega
            · simp only [List.length_drop, List.length_cons]; omega

theorem rmURL_nil : rmURL [] = [] := rfl

theorem rmURL_cons (c : Char) (cs : List Char) :
    rmURL (c :: cs) =
      if httpLen (c :: cs) = 0 then c :: rmURL cs
      else rmURL ((c :: cs).drop (httpLen (c :: cs))) := by
  show rmURLF (c :: cs).length (c :: cs) = _
  simp only [List.length_cons, rmURLF]
  split
  · rfl
  · rename_i hne
    have hb := httpLen_le (c :: cs)
    simp only [List.length_cons] at hb
    apply rmURLF_fuel
    · simp only [List.length_drop, List.length_cons]; omega
    · simp only [List.length_drop, List.length_cons]; omega

/-- `re.sub(r'[^a-zA-Z0-9\s]', '', body)`. -/
def rmSpecial (l : List Char) : List Char :=
  l.filter (fun c => isAsciiAlnum c || isPySpace c)

/-- `body.lower()`. -/
def lowerAll (l : List Char) : List Char := l.map asciiLower

/-- The scan of `re.sub(r'\b\w{1,2}\b', '', body)`: a match is a maximal `\w`
run of length 1 or 2 (the `\b` boundaries forbid matching inside a longer
run), and only the word characters are removed. -/
def rmShortF : Nat → List Char → List Char
  | 0, l => l
  | _, [] => []
  | fuel + 1, c :: cs =>
      if isWordChar c then
        (if ((c :: cs).takeWhile isWordChar).length ≤ 2 then []
         else (c :: cs).takeWhile isWordChar) ++ rmShortF fuel ((c :: cs).dropWhile isWordChar)
      else c :: rmShortF fuel cs

def rmShort (l : List Char) : List Char := rmShortF l.length l

theorem rmShortF_fuel : ∀ f1 f2 (l : List Char), l.length ≤ f1 → l.length ≤ f2 →
    rmShortF f1 l = rmShortF f2 l := by
  intro f1
  induction f1 with
  | zero =>
      intro f2 l h1 _
      have : l = [] := List.length_eq_zero.mp (Nat.le_zero.mp h1)
      subst this
      cases f2 <;> rfl
  | succ f ih =>
      intro f2 l h1 h2
      match l, f2 with
      | [], g => cases g <;> rfl
      | c :: cs, g + 1 =>
          simp only [rmShortF]
          simp only [List.length_cons] at h1 h2
          split
          · rename_i hw
            have hd : (c :: cs).dropWhile isWordChar = cs.dropWhile isWordChar := by
              simp [List.dropWhile_cons, hw]
            have hdl := (List.dropWhile_sublist (l := cs) isWordChar).length_le
            rw [ih g ((c :: cs).dropWhile isWordChar) (by rw [hd]; omega) (by rw [hd]; omega)]
          · rw [ih g cs (by omega) (by omega)]

theorem rmShort_nil : rmShort [] = [] := rfl

theorem rmShort_cons (c : Char) (cs : List Char) :
    rmShort (c :: cs) =
      if isWordChar c then
        (if ((c :: cs).takeWhile isWordChar).length ≤ 2 then []
         else (c :: cs).takeWhile isWordChar) ++ rmShort ((c :: cs).dropWhile isWordChar)
      else c :: rmShort cs := by
  show rmShortF (c :: cs).length (c :: cs) = _
  simp only [List.length_cons, rmShortF]
  split
  · rename_i hw
    have hd : (c :: cs).dropWhile isWordChar = cs.dropWhile isWordChar := by
      simp [List.dropWhile_cons, hw]
    have hdl := (List.dropWhile_sublist (l := cs) isWordChar).length_le
    rw [rmShortF_fuel cs.length _ _ (by rw [hd]; omega) le_rfl]; rfl
  · rfl

/-- `body.strip()` (whitespace from both ends). -/
def stripChars (l : List Char) : List Char :=
  ((l.dropWhile isPySpace).reverse.dropWhile isPySpace).reverse

/-- `normalize_body` (agent.py:42-57): the guard for falsy input followed by
the six substitution passes and the final strip. -/
def normalize_body (s : String) : String :=
  if s = "" then ""
  else ⟨stripChars (rmShort (lowerAll (rmSpecial (rmURL (collapseWS (rmTS s.data))))))⟩

/-!  ## difflib.SequenceMatcher

`SequenceMatcher(None, a, b).ratio()` is `2*M/(len(a)+len(b))` where `M` is
the total size of the matching blocks (`1.0` when both sequences are empty).
With no junk (autojunk is inactive below 200 elements), `find_longest_match`
returns the longest matching block; among blocks of maximal size `k` it
returns the one with minimal start in `a`, then minimal start in `b`: its
scan goes through rows `i` in increasing order, columns `j` in increasing
order, keeping the first cell whose common-suffix length is strictly maximal,
i.e. the earliest *end* position — which for fixed `k` orders blocks exactly
by start position.  `findBest` below searches by start position directly. -/

/-- Length of the longest common prefix of two lists. -/
def prefLen : List Char → List Char → Nat
  | a :: as, b :: bs => if a = b then prefLen as bs + 1 else 0
  | _, _ => 0

/-- One row of the `find_longest_match` scan: fold over the candidate start
positions `j` in `b` for a fixed start position `i` in `a`, keeping the first
strictly longer block. -/
def findBestRow (a b : List Char) (i : Nat) (best : Nat × Nat × Nat) : Nat × Nat × Nat :=
  (List.range (b.length)).foldl
    (fun best j =>
      if best.2.2 < prefLen (a.drop i) (b.drop j) then (i, j, prefLen (a.drop i) (b.drop j))
      else best)
    best

/-- `find_longest_match` over the whole of `a` and `b` (no junk): the triple
`(i, j, k)` of the longest matching block, ties resolved towards the smallest
`i`, then the smallest `j` (strict improvement in a row-major scan). -/
def findBest (a b : List Char) : Nat × Nat × Nat :=
  (List.range (a.length)).foldl (fun best i => findBestRow a b i best) (0, 0, 0)

/-- Total size of the matching blocks (`get_matching_blocks`): recursively
split around the longest match.  The fuel argument is always called with
`a.length + b.length`, which bounds the recursion depth. -/
def matchTotal : Nat → List Char → List Char → Nat
  | 0, _, _ => 0
  | fuel + 1, a, b =>
      let t := findBest a b
      if t.2.2 = 0 then 0
      else matchTotal fuel (a.take t.1) (b.take t.2.1) + t.2.2 +
           matchTotal fuel (a.drop (t.1 + t.2.2)) (b.drop (t.2.1 + t.2.2))

/-- An exact non-negative rational `num/den` (`den` is positive everywhere it
is used below), standing in for a Python float. -/
structure Frac where
  num : Nat
  den : Nat

/-- Float equality `x == y`, as equality of exact rationals. -/
def Frac.feq (x y : Frac) : Bool := x.num * y.den = y.num * x.den

/-- Float comparison `x <= y`. -/
def Frac.fle (x y : Frac) : Bool := x.num * y.den ≤ y.num * x.den

/-- Float comparison `x < y`. -/
def Frac.flt (x y : Frac) : Bool := x.num * y.den < y.num * x.den

/-- The float `1.0`. -/
def fone : Frac := ⟨1, 1⟩

/-- The float `0.0`. -/
def fzero : Frac := ⟨0, 1⟩

/-- `SequenceMatcher(None, a, b).ratio()`: `2*M / (len(a)+len(b))`, and `1.0`
when both sequences are empty. -/
def ratioF (a b : List Char) : Frac :=
  if a.length + b.length = 0 then fone
  else ⟨2 * matchTotal (a.length + b.length) a b, a.length + b.length⟩

/-- `are_bodies_similar(body1, body2, threshold)` (agent.py:59-69): `(False, 0.0)`
if either body is falsy, else `(ratio > threshold, ratio)`. -/
def are_bodies_similar (body1 body2 : String) (threshold : Frac) : Bool × Frac :=
  if body1 = "" || body2 = "" then (false, fzero)
  else (Frac.flt threshold (ratioF body1.data body2.data), ratioF body1.data body2.data)

/-!  ## find_and_remove_duplicates (agent.py:106-197)

One folder scan.  The interactive `input("Delete duplicate email? (y/n): ")`
is modelled by an oracle giving the answer to the n-th prompt of the process.
Each processed message is classified by an event; messages are marked for
deletion during the scan and deleted only after it (two-phase). -/

/-- Thresholds read from config.ini (agent.py:25-26). -/
structure Config where
  bodyThreshold : Frac
  first300Threshold : Frac

/-- The per-key record stored in `seen` (agent.py:154-190). -/
structure SeenEntry where
  folderName : String
  subject : String
  sender : String
  received : Timestamp
  body : String
  key : Key
deriving DecidableEq

def mkSeenEntry (folderName : String) (m : Msg) (nbody : String) (key : Key) : SeenEntry :=
  { folderName := folderName, subject := m.subject, sender := m.sender,
    received := m.received, body := nbody, key := key }

/-- What happened to one message during the scan. -/
inductive Ev where
  | first        -- key not seen yet: becomes the representative (agent.py:182-190)
  | skipCompared -- pair already in compared_pairs: skipped (agent.py:121-123)
  | skipNonDup   -- pair already in non_duplicates: skipped (agent.py:125-127)
  | dup          -- ratio == 1.0: marked for deletion (agent.py:132-134)
  | promptYes    -- ambiguous, first-300 passed, user accepted (agent.py:148-151)
  | promptNo     -- ambiguous, first-300 passed, user declined (agent.py:152-161)
  | headFail     -- ambiguous, first-300 check failed (agent.py:162-171)
  | lowRatio     -- ratio below the threshold (agent.py:172-181)
deriving DecidableEq

/-- Did this event invoke `SequenceMatcher` on the message's pair? -/
def Ev.isCompare : Ev → Bool
  | .dup | .promptYes | .promptNo | .headFail | .lowRatio => true
  | _ => false

/-- Was the pair skipped without comparison? -/
def Ev.isSkip : Ev → Bool
  | .skipCompared | .skipNonDup => true
  | _ => false

/-- Was the message marked for deletion? -/
def Ev.isMark : Ev → Bool
  | .dup | .promptYes => true
  | _ => false

/-- Did the event escalate to the human adjudicator (`input(...)`)? -/
def Ev.isPrompt : Ev → Bool
  | .promptYes | .promptNo => true
  | _ => false

/-- The scan state of `find_and_remove_duplicates`. -/
structure DetState where
  seen : List (Key × SeenEntry)
  marked : List (Nat × Msg)      -- the `duplicates` list, with positions
  compared : List (Key × Key)    -- the `compared_pairs` set
  patterns : Patterns            -- the process-wide learned patterns
  prompts : Nat                  -- number of `input()` prompts issued so far
  events : List Ev               -- one event per processed message, in order

/-- Classify one already-seen message against its representative `s`
(agent.py:120-181), without touching the state. -/
def detClassify (cfg : Config) (oracle : Nat → Bool) (st : DetState)
    (key : Key) (s : SeenEntry) (nbody : String) : Ev :=
  if (key, s.key) ∈ st.compared ∨ (s.key, key) ∈ st.compared then .skipCompared
  else if containsKey (pairVal key s.key) st.patterns.nonDuplicates ∨
          containsKey (pairVal s.key key) st.patterns.nonDuplicates then .skipNonDup
  else
    let r := ratioF s.body.data nbody.data
    if r.feq fone then .dup
    else if cfg.bodyThreshold.fle r ∧ r.flt fone then
      if (are_bodies_similar ⟨s.body.data.take 300⟩ ⟨nbody.data.take 300⟩
            cfg.first300Threshold).1 then
        if oracle st.prompts then .promptYes else .promptNo
      else .headFail
    else .lowRatio

/-- Apply the state change of an event for an already-seen message. -/
def detApply (folderName : String) (st : DetState) (idx : Nat) (m : Msg)
    (key : Key) (s : SeenEntry) (nbody : String) : Ev → DetState
  | .skipCompared => { st with events := st.events ++ [.skipCompared] }
  | .skipNonDup => { st with events := st.events ++ [.skipNonDup] }
  | .dup =>
      { st with marked := st.marked ++ [(idx, m)],
                patterns := { st.patterns with
                  duplicates := dictInsert (keyVal key) nbody st.patterns.duplicates },
                compared := (key, s.key) :: st.compared,
                events := st.events ++ [.dup] }
  | .promptYes =>
      { st with marked := st.marked ++ [(idx, m)],
                patterns := { st.patterns with
                  duplicates := dictInsert (keyVal key) nbody st.patterns.duplicates },
                compared := (key, s.key) :: st.compared,
                prompts := st.prompts + 1,
                events := st.events ++ [.promptYes] }
  | .promptNo =>
      { st with patterns := { st.patterns with
                  nonDuplicates := dictInsert (pairVal key s.key) true st.patterns.nonDuplicates },
                seen := dictInsert key (mkSeenEntry folderName m nbody key) st.seen,
                compared := (key, s.key) :: st.compared,
                prompts := st.prompts + 1,
                events := st.events ++ [.promptNo] }
  | .headFail =>
      { st with patterns := { st.patterns with
                  nonDuplicates := dictInsert (pairVal key s.key) true st.patterns.nonDuplicates },
                seen := dictInsert key (mkSeenEntry folderName m nbody key) st.seen,
                compared := (key, s.key) :: st.compared,
                events := st.events ++ [.headFail] }
  | .lowRatio =>
      { st with patterns := { st.patterns with
                  nonDuplicates := dictInsert (pairVal key s.key) true st.patterns.nonDuplicates },
                seen := dictInsert key (mkSeenEntry folderName m nbody key) st.seen,
                compared := (key, s.key) :: st.compared,
                events := st.events ++ [.lowRatio] }
  | .first => st

/-- Process one message (the body of the `while message:` loop,
agent.py:116-192). -/
def detStep (cfg : Config) (oracle : Nat → Bool) (folderName : String)
    (st : DetState) (idx : Nat) (m : Msg) : DetState :=
  let key := m.key
  let nbody := normalize_body m.body
  match dictFind key st.seen with
  | none =>
      { st with seen := dictInsert key (mkSeenEntry folderName m nbody key) st.seen,
                events := st.events ++ [.first] }
  | some s => detApply folderName st idx m key s nbody (detClassify cfg oracle st key s nbody)

/-- The scan loop. -/
def detGo (cfg : Config) (oracle : Nat → Bool) (folderName : String) :
    DetState → Nat → List Msg → DetState
  | st, _, [] => st
  | st, idx, m :: rest =>
      detGo cfg oracle folderName (detStep cfg oracle folderName st idx m) (idx + 1) rest

/-- `find_and_remove_duplicates` on one folder: full scan from the empty
per-folder state, starting from the given process-wide patterns and prompt
count. -/
def detRun (cfg : Config) (oracle : Nat → Bool) (folderName : String)
    (prompts0 : Nat) (patterns0 : Patterns) (msgs : List Msg) : DetState :=
  detGo cfg oracle folderName
    { seen := [], marked := [], compared := [], patterns := patterns0,
      prompts := prompts0, events := [] } 0 msgs

/-- Remove the messages at the marked positions (the deletion phase,
agent.py:194-197); `i` is the position of the head of the list. -/
def removeMarked (markedIdx : List Nat) : Nat → List Msg → List Msg
  | _, [] => []
  | i, m :: rest =>
      if markedIdx.contains i then removeMarked markedIdx (i + 1) rest
      else m :: removeMarked markedIdx (i + 1) rest

/-- The messages surviving one `find_and_remove_duplicates` pass. -/
def detSurvivors (cfg : Config) (oracle : Nat → Bool) (folderName : String)
    (prompts0 : Nat) (patterns0 : Patterns) (msgs : List Msg) : List Msg :=
  removeMarked ((detRun cfg oracle folderName prompts0 patterns0 msgs).marked.map (·.1)) 0 msgs

/-!  ## retain_most_recent_emails (agent.py:201-245)

The single-folder pass (lines 205-238).  Note that the source function also
recurses into subfolders (lines 240-243); that recursion is part of the
walker model further below. -/

/-- Does `pat` occur at the head of the text? -/
def startsWithSeq : List Char → List Char → Bool
  | [], _ => true
  | _ :: _, [] => false
  | p :: ps, t :: ts => p = t && startsWithSeq ps ts

/-- Python's substring test `pat in text`. -/
def containsSeq (pat : List Char) : List Char → Bool
  | [] => startsWithSeq pat []
  | t :: ts => startsWithSeq pat (t :: ts) || containsSeq pat ts

/-- `body_filter.lower() in message_body.lower()` (agent.py:215, 222, 234). -/
def msgMatches (f : String) (m : Msg) : Bool :=
  containsSeq (lowerAll f.data) (lowerAll m.body.data)

/-- State of the first retention loop: `most_recent_messages` maps a filter to
the position and message of its current best, `toDelete` is
`messages_to_delete` (with positions). -/
structure RetState where
  best : List (String × (Nat × Msg))
  toDelete : List (Nat × Msg)

/-- One iteration of the first loop (agent.py:210-230): find the first
matching filter, then either install, supersede, or delete. -/
def retStep (filters : List String) (st : RetState) (idx : Nat) (m : Msg) : RetState :=
  if filters.any (fun f => msgMatches f m) then
    match filters.find? (fun f => msgMatches f m) with
    | some f =>
        match dictFind f st.best with
        | none => { st with best := dictInsert f (idx, m) st.best }
        | some b =>
            if tsLt b.2.received m.received then
              { best := dictInsert f (idx, m) st.best, toDelete := st.toDelete ++ [b] }
            else
              { st with toDelete := st.toDelete ++ [(idx, m)] }
    | none => st
  else st

def retGo (filters : List String) : RetState → Nat → List Msg → RetState
  | st, _, [] => st
  | st, idx, m :: rest => retGo filters (retStep filters st idx m) (idx + 1) rest

def retRun (filters : List String) (msgs : List Msg) : RetState :=
  retGo filters { best := [], toDelete := [] } 0 msgs

/-- The deletion loop (agent.py:232-238): each queued message is deleted if it
(still) matches some filter — which it always does, having been queued. -/
def retDeletedIdx (filters : List String) (msgs : List Msg) : List Nat :=
  ((retRun filters msgs).toDelete.filter (fun p => filters.any (fun f => msgMatches f p.2))).map (·.1)

/-- The messages of one folder surviving the single-folder retention pass. -/
def retSurvivors (filters : List String) (msgs : List Msg) : List Msg :=
  removeMarked (retDeletedIdx filters msgs) 0 msgs

/-!  ## The folder walk (process_folder, agent.py:247-257)

`process_folder(folder)` runs `find_and_remove_duplicates(folder)`, then
`retain_most_recent_emails(folder)` — which *itself* recurses into every
subfolder (agent.py:240-243) — and then calls itself on each subfolder.
Neither phase creates or removes folders (they only delete messages), so the
sequence of (phase, folder) invocations depends only on the shape of the
folder tree; it is modelled directly below, each folder named by its path of
child indices from the root. -/

inductive Folder where
  | node (name : String) (msgs : List Msg) (subs : List Folder)

/-- A phase entering a folder: `dupPhase p` is `find_and_remove_duplicates`
on the folder at path `p`, `retPhase p` is the single-folder body of
`retain_most_recent_emails` on the folder at path `p`. -/
inductive PEvent where
  | dupPhase (path : List Nat)
  | retPhase (path : List Nat)
deriving DecidableEq

mutual
/-- The folders entered by `retain_most_recent_emails(folder)` (agent.py:201-245),
in order: the folder itself, then every subfolder recursively. -/
def retainTrace (path : List Nat) : Folder → List (List Nat)
  | .node _ _ subs => path :: retainTraceList path 0 subs
def retainTraceList (path : List Nat) (i : Nat) : List Folder → List (List Nat)
  | [] => []
  | c :: rest => retainTrace (path ++ [i]) c ++ retainTraceList path (i + 1) rest
end

mutual
/-- The phase invocations of `process_folder(folder)` (agent.py:247-257), in
order: duplicates on the folder, retention on the folder's whole subtree,
then the recursive calls on the subfolders. -/
def walkTrace (path : List Nat) : Folder → List PEvent
  | .node n msgs subs =>
      PEvent.dupPhase path ::
        ((retainTrace path (.node n msgs subs)).map PEvent.retPhase ++
          walkTraceList path 0 subs)
def walkTraceList (path : List Nat) (i : Nat) : List Folder → List PEvent
  | [] => []
  | c :: rest => walkTrace (path ++ [i]) c ++ walkTraceList path (i + 1) rest
end

mutual
/-- The paths of all folders of a tree, in depth-first preorder (this is the
specification-side description of the hierarchy, used to state the walk
claims). -/
def folderPaths (path : List Nat) : Folder → List (List Nat)
  | .node _ _ subs => path :: folderPathsList path 0 subs
def folderPathsList (path : List Nat) (i : Nat) : List Folder → List (List Nat)
  | [] => []
  | c :: rest => folderPaths (path ++ [i]) c ++ folderPathsList path (i + 1) rest
end

/-- The duplicate-detector invocations of a walk, in order. -/
def dupPaths (evs : List PEvent) : List (List Nat) :=
  evs.filterMap (fun e => match e with | .dupPhase p => some p | _ => none)

/-- The retention invocations of a walk, in order. -/
def retPaths (evs : List PEvent) : List (List Nat) :=
  evs.filterMap (fun e => match e with | .retPhase p => some p | _ => none)

/-!  ## Concrete instances used by the claim theorems -/

def sampleDate : Date := ⟨2024, 1, 5⟩

def sampleKey : Key := ("Status", "Alice", sampleDate)

/-- A learned-patterns value with one real (date-keyed) duplicates entry. -/
def samplePatterns : Patterns := ⟨[(keyVal sampleKey, "body text")], []⟩

def cfgMain : Config := ⟨⟨1, 2⟩, ⟨7, 10⟩⟩

def oracleNo : Nat → Bool := fun _ => false

def oracleYes : Nat → Bool := fun _ => true

/-- A message with the sample subject/sender/day. -/
def mkSample (body : String) (tod : Nat) : Msg :=
  ⟨"Status", "Alice", ⟨sampleDate, tod⟩, body⟩

/-- Two same-key messages whose bodies are similar but not identical
(whole-body ratio 3/4). -/
def msgPairA : List Msg := [mkSample "aaaa" 0, mkSample "aaab" 1]

def runA1 : DetState := detRun cfgMain oracleNo "Inbox" 0 emptyPatterns msgPairA

/-- Three same-key messages with identical bodies. -/
def msgsTriple : List Msg :=
  [mkSample "hello world foo" 0, mkSample "hello world foo" 1, mkSample "hello world foo" 2]

def runT1 : DetState := detRun cfgMain oracleNo "Inbox" 0 emptyPatterns msgsTriple

def survT1 : List Msg := detSurvivors cfgMain oracleNo "Inbox" 0 emptyPatterns msgsTriple

/-- Two same-key messages whose bodies normalize to the empty string. -/
def msgPairE : List Msg := [mkSample "ab" 0, mkSample "cd" 1]

/-- Thresholds for the escalation boundary: first-300 threshold 3/4. -/
def cfgEq : Config := ⟨⟨2, 5⟩, ⟨3, 4⟩⟩

/-- Two same-key messages whose normalized bodies have ratio exactly 3/4. -/
def msgPairB : List Msg := [mkSample "okay" 0, mkSample "oxay" 1]

/-- Retention filters where one message matches both. -/
def filtersBB : List String := ["aaa", "bbb"]

def msgsBB : List Msg := [mkSample "aaa bbb" 1, mkSample "bbb" 2]

/-- A root folder with a single subfolder. -/
def sampleTree : Folder := .node "Root" [] [.node "Child" [] []]

/-!  ## Claim C1 — persisted-state round trip -/

/-- Claim C1 evaluated at a failing input: saving a learned-patterns value
whose only entry is keyed by a real `(subject, sender, date)` tuple and
loading it back yields the two *empty* mappings, not the saved value — the
stringified key embeds `datetime.date(...)`, which `ast.literal_eval`
rejects, and `load_learned_patterns` answers the resulting error with empty
patterns.  So `load(save(P)) ≠ P` for this valid `P`. -/
theorem c1_roundtrip_fails :
    load_learned_patterns (save_learned_patterns samplePatterns) = emptyPatterns ∧
    samplePatterns ≠ emptyPatterns := by
  constructor
  · rfl
  · decide

/-!  ## Claim C2 — non-duplicate pairs are never re-scored -/

/-- Claim C2 evaluated at a failing input: the first run records the key pair
of `msgPairA` in `non_duplicates` (the adjudicator declined) and deletes
nothing; saving and reloading the patterns loses that entry (see C1), so a
later run over the same two messages invokes the similarity scorer on the
pair again (its second event is a comparison, not a skip) and — the
adjudicator now accepting — even deletes the second message. -/
theorem c2_rescored_after_reload :
    containsKey (pairVal (mkSample "aaaa" 0).key (mkSample "aaaa" 0).key)
      runA1.patterns.nonDuplicates = true ∧
    runA1.marked = [] ∧
    load_learned_patterns (save_learned_patterns runA1.patterns) = emptyPatterns ∧
    (detRun cfgMain oracleYes "Inbox" 0
        (load_learned_patterns (save_learned_patterns runA1.patterns)) msgPairA).events.map
      Ev.isCompare = [false, true] ∧
    (detRun cfgMain oracleYes "Inbox" 0
        (load_learned_patterns (save_learned_patterns runA1.patterns)) msgPairA).marked.map
      (·.1) = [1] := by
  refine ⟨by decide, by decide, by decide, by decide, by decide⟩

/-!  ## Concrete counterexamples for the corrected claims -/

/-- Claim C3 is false as stated: on three same-key messages with identical
bodies, the first scan deletes only the second message (the third is skipped
because the pair is already in `compared_pairs`), and a second scan over the
survivors — with the learned patterns left by the first — deletes the third
message: it marks a further message for deletion. -/
theorem c3_counterexample :
    runT1.marked.map (·.1) = [1] ∧
    (detRun cfgMain oracleNo "Inbox" 0 runT1.patterns survT1).marked ≠ [] := by
  refine ⟨by decide, by decide⟩

/-- Claim C4 is false as stated: with filters `["aaa", "bbb"]`, a message
containing both filter substrings is tracked under `"aaa"` (first match wins)
while a second message matches only `"bbb"`; nothing is deleted and two
surviving messages contain the filter substring `"bbb"`. -/
theorem c4_counterexample :
    "bbb" ∈ filtersBB ∧
    ((retSurvivors filtersBB msgsBB).filter (fun m => msgMatches "bbb" m)).length = 2 := by
  refine ⟨by decide, by decide⟩

/-- Claim C5 is false as stated: two same-key messages whose bodies normalize
to the empty string are compared by the raw `SequenceMatcher` call on line
129 (not by `are_bodies_similar`), which yields ratio `1.0` on two empty
sequences, so the second message is classified Duplicate and marked for
deletion — not retained. -/
theorem c5_counterexample :
    normalize_body "ab" = "" ∧ normalize_body "cd" = "" ∧
    (detRun cfgMain oracleNo "Inbox" 0 emptyPatterns msgPairE).marked.map (·.1) = [1] := by
  refine ⟨by decide, by decide, by decide⟩

/-- Claim C6 is false as stated: normalizing `"efg ab hij"` removes the short
word `"ab"` but keeps the spaces around it, leaving a double space, which a
second normalization pass collapses — so `normalize(normalize(x)) ≠
normalize(x)` at this input. -/
theorem c6_counterexample :
    normalize_body (normalize_body "efg ab hij") ≠ normalize_body "efg ab hij" := by
  decide

/-- Claim C7 is false as stated: the similarity score of
`SequenceMatcher.ratio` is not symmetric — on `"abqcd"` and `"cdabzq"` the
two argument orders give 6/11 and 4/11 (the tie between the equally long
blocks `"ab"` and `"cd"` is broken towards the first sequence, stranding a
further match in one order only). -/
theorem c7_counterexample :
    Frac.feq (are_bodies_similar "abqcd" "cdabzq" ⟨9, 10⟩).2
      (are_bodies_similar "cdabzq" "abqcd" ⟨9, 10⟩).2 = false := by
  decide

/-- Claim C8 is false as stated: an ambiguous pair (whole-body ratio 3/4,
between the body threshold 2/5 and 1) whose first-300-characters similarity
is exactly the first-300 threshold 3/4 is *not* escalated — the comparison on
line 66 is strict (`ratio > threshold`) — so no prompt event occurs. -/
theorem c8_counterexample :
    Frac.fle cfgEq.bodyThreshold (ratioF (normalize_body "okay").data (normalize_body "oxay").data) = true ∧
    Frac.flt (ratioF (normalize_body "okay").data (normalize_body "oxay").data) fone = true ∧
    Frac.feq (ratioF ((normalize_body "okay").data.take 300) ((normalize_body "oxay").data.take 300))
      cfgEq.first300Threshold = true ∧
    (detRun cfgEq oracleYes "Inbox" 0 emptyPatterns msgPairB).events.map Ev.isPrompt =
      [false, false] := by
  refine ⟨by decide, by decide, by decide, by decide⟩

/-- Claim C9 is false as stated: in a tree with one subfolder, the walk
enters the retention pass on the subfolder twice — once from the root's
`retain_most_recent_emails` (which recurses into subfolders itself,
agent.py:240-243) and once from `process_folder`'s own recursion — not
exactly once. -/
theorem c9_counterexample :
    [0] ∈ folderPaths [] sampleTree ∧
    (retPaths (walkTrace [] sampleTree)).count [0] ≠ 1 := by
  constructor
  · show [0] ∈ folderPaths [] sampleTree
    simp [sampleTree, folderPaths, folderPathsList]
  · show (retPaths (walkTrace [] sampleTree)).count [0] ≠ 1
    simp [walkTrace, walkTraceList, retainTrace, retainTraceList, retPaths, sampleTree]

/-!  ## Matching theory: the ratio of a string with itself -/

theorem prefLen_self : ∀ l : List Char, prefLen l l = l.length
  | [] => rfl
  | c :: cs => by simp [prefLen, prefLen_self cs]

theorem prefLen_le_left : ∀ a b : List Char, prefLen a b ≤ a.length
  | [], _ => Nat.le_refl 0
  | _ :: _, [] => by simp [prefLen]
  | a :: as, b :: bs => by
      simp only [prefLen, List.length_cons]
      split
      · exact Nat.succ_le_succ (prefLen_le_left as bs)
      · exact Nat.zero_le _

theorem foldCells_stable (a b : List Char) (i : Nat) (js : List Nat)
    (best : Nat × Nat × Nat) (h : ∀ j, prefLen (a.drop i) (b.drop j) ≤ best.2.2) :
    js.foldl (fun best j => if best.2.2 < prefLen (a.drop i) (b.drop j)
        then (i, j, prefLen (a.drop i) (b.drop j)) else best) best = best := by
  induction js with
  | nil => rfl
  | cons j rest ih =>
      simp only [List.foldl_cons]
      rw [if_neg (by have := h j; omega)]
      exact ih

theorem findBestRow_stable (a b : List Char) (i : Nat) (best : Nat × Nat × Nat)
    (h : ∀ j, prefLen (a.drop i) (b.drop j) ≤ best.2.2) :
    findBestRow a b i best = best :=
  foldCells_stable a b i _ best h

theorem foldRows_stable (a b : List Char) (is : List Nat) (best : Nat × Nat × Nat)
    (h : ∀ i j, prefLen (a.drop i) (b.drop j) ≤ best.2.2) :
    is.foldl (fun best i => findBestRow a b i best) best = best := by
  induction is with
  | nil => rfl
  | cons i rest ih =>
      simp only [List.foldl_cons]
      rw [findBestRow_stable a b i best (h i)]
      exact ih

/-- The first row of the scan of `l` against itself immediately finds the
whole list. -/
theorem findBestRow_self (l : List Char) (h : l ≠ []) :
    findBestRow l l 0 (0, 0, 0) = (0, 0, l.length) := by
  obtain ⟨n, hn⟩ : ∃ n, l.length = n + 1 := by
    cases l with
    | nil => exact absurd rfl h
    | cons c cs => exact ⟨cs.length, by simp⟩
  unfold findBestRow
  rw [hn, List.range_succ_eq_map]
  simp only [List.foldl_cons, List.drop_zero, prefLen_self]
  rw [if_pos (by omega)]
  have hgoal : (0, 0, l.length) = ((0 : Nat), (0 : Nat), n + 1) := by rw [hn]
  rw [hgoal]
  refine foldCells_stable l l 0 _ _ ?_
  intro j
  show prefLen (l.drop 0) (l.drop j) ≤ n + 1
  have h1 := prefLen_le_left (l.drop 0) (l.drop j)
  simp only [List.drop_zero] at h1 ⊢
  omega

/-- On a non-empty list, `find_longest_match(l, l)` is the whole list. -/
theorem findBest_self (l : List Char) (h : l ≠ []) : findBest l l = (0, 0, l.length) := by
  obtain ⟨n, hn⟩ : ∃ n, l.length = n + 1 := by
    cases l with
    | nil => exact absurd rfl h
    | cons c cs => exact ⟨cs.length, by simp⟩
  unfold findBest
  rw [hn, List.range_succ_eq_map]
  simp only [List.foldl_cons]
  rw [show findBestRow l l 0 (0, 0, 0) = (0, 0, l.length) from findBestRow_self l h]
  have hstable := foldRows_stable l l ((List.range n).map Nat.succ) (0, 0, l.length)
    (fun i j => by
      show prefLen (l.drop i) (l.drop j) ≤ l.length
      have h1 := prefLen_le_left (l.drop i) (l.drop j)
      have h2 := (List.drop_sublist i l).length_le
      omega)
  rw [hstable, hn]

theorem matchTotal_nil_nil : ∀ fuel, matchTotal fuel [] [] = 0 := by
  intro fuel
  cases fuel <;> rfl

/-- On a non-empty list, the matching total of `l` against itself is the full
length. -/
theorem matchTotal_self (l : List Char) (h : l ≠ []) :
    matchTotal (l.length + l.length) l l = l.length := by
  obtain ⟨n, hn⟩ : ∃ n, l.length + l.length = n + 1 := by
    cases l with
    | nil => exact absurd rfl h
    | cons c cs => exact ⟨cs.length + (c :: cs).length, by simp; omega⟩
  rw [hn]
  simp only [matchTotal, findBest_self l h]
  rw [if_neg (by simpa using h)]
  simp [List.drop_length, matchTotal_nil_nil]

/-!  ## Claim C7 — symmetry and reflexivity of the similarity score -/

/-- Claim C7, amended: the score is *not* symmetric in general (see
`c7_counterexample`), but it is reflexive: for every non-empty string and any
threshold, `are_bodies_similar(a, a, t)` computes the score of `a` with
itself as exactly `1.0` (difflib's autojunk heuristic, inactive below 200
characters, is outside this model). -/
theorem c7_score_self_one (a : String) (t : Frac) (h : a ≠ "") :
    Frac.feq (are_bodies_similar a a t).2 fone = true := by
  have hd : a.data ≠ [] := by
    intro hc
    apply h
    cases a
    simp_all
  unfold are_bodies_similar
  rw [if_neg (by simp [h])]
  show Frac.feq (ratioF a.data a.data) fone = true
  unfold ratioF
  have hlen : a.data.length ≠ 0 := by
    intro hc
    exact hd (List.length_eq_zero.mp hc)
  rw [if_neg (by omega)]
  simp only [Frac.feq, fone, matchTotal_self a.data hd]
  simp
  omega

/-- Witness for `c7_score_self_one` at a concrete input. -/
theorem c7_score_self_one_witness :
    ("abc" : String) ≠ "" ∧
    Frac.feq (are_bodies_similar "abc" "abc" ⟨9, 10⟩).2 fone = true :=
  ⟨by decide, c7_score_self_one "abc" ⟨9, 10⟩ (by decide)⟩

/-!  ## Claim C8 — the first-300 escalation condition -/

theorem Frac.flt_feq_false (x y : Frac) (h : Frac.flt x y = true) : Frac.feq x y = false := by
  unfold Frac.flt at h
  unfold Frac.feq
  simp only [decide_eq_true_eq] at h
  simp only [decide_eq_false_iff_not]
  omega

/-- `are_bodies_similar` answers `True` exactly on non-empty inputs whose
ratio strictly exceeds the threshold. -/
theorem are_bodies_similar_fst (b1 b2 : String) (t : Frac) :
    (are_bodies_similar b1 b2 t).1 = true ↔
      (b1 ≠ "" ∧ b2 ≠ "" ∧ Frac.flt t (ratioF b1.data b2.data) = true) := by
  unfold are_bodies_similar
  split
  · rename_i hcond
    simp only [Bool.or_eq_true, decide_eq_true_eq] at hcond
    constructor
    · intro hfalse
      exact absurd hfalse (by simp)
    · rintro ⟨hb1, hb2, _⟩
      cases hcond with
      | inl hc => exact absurd hc hb1
      | inr hc => exact absurd hc hb2
  · rename_i hcond
    simp only [Bool.or_eq_true, decide_eq_true_eq, not_or] at hcond
    simp [hcond.1, hcond.2]

/-- Claim C8, amended: for an ambiguous pair (pair not previously skipped,
whole-body ratio between the body threshold inclusive and `1.0` exclusive),
the detector escalates to the human adjudicator exactly when both
300-character prefixes of the normalized bodies are non-empty and their
similarity is *strictly greater* than `FIRST_300_CHARS_SIMILARITY_THRESHOLD`;
equality with the threshold is not escalated. -/
theorem c8_escalates_iff_strict (cfg : Config) (oracle : Nat → Bool) (st : DetState)
    (key : Key) (s : SeenEntry) (nbody : String)
    (h1 : ¬((key, s.key) ∈ st.compared ∨ (s.key, key) ∈ st.compared))
    (h2 : ¬(containsKey (pairVal key s.key) st.patterns.nonDuplicates = true ∨
            containsKey (pairVal s.key key) st.patterns.nonDuplicates = true))
    (h3 : Frac.fle cfg.bodyThreshold (ratioF s.body.data nbody.data) = true)
    (h4 : Frac.flt (ratioF s.body.data nbody.data) fone = true) :
    (detClassify cfg oracle st key s nbody).isPrompt = true ↔
      ((⟨s.body.data.take 300⟩ : String) ≠ "" ∧ (⟨nbody.data.take 300⟩ : String) ≠ "" ∧
        Frac.flt cfg.first300Threshold
          (ratioF (s.body.data.take 300) (nbody.data.take 300)) = true) := by
  unfold detClassify
  rw [if_neg h1, if_neg h2]
  show (if Frac.feq (ratioF s.body.data nbody.data) fone = true then Ev.dup
    else if Frac.fle cfg.bodyThreshold (ratioF s.body.data nbody.data) = true ∧
            Frac.flt (ratioF s.body.data nbody.data) fone = true then
      if (are_bodies_similar ⟨s.body.data.take 300⟩ ⟨nbody.data.take 300⟩
            cfg.first300Threshold).1 = true then
        if oracle st.prompts = true then Ev.promptYes else Ev.promptNo
      else Ev.headFail
    else Ev.lowRatio).isPrompt = true ↔ _
  rw [if_neg (by rw [Frac.flt_feq_false _ _ h4]; simp)]
  rw [if_pos ⟨h3, h4⟩]
  by_cases hA : (are_bodies_similar ⟨s.body.data.take 300⟩ ⟨nbody.data.take 300⟩
      cfg.first300Threshold).1 = true
  · rw [if_pos hA]
    have := (are_bodies_similar_fst ⟨s.body.data.take 300⟩ ⟨nbody.data.take 300⟩
      cfg.first300Threshold).mp hA
    constructor
    · intro _
      exact this
    · intro _
      by_cases ho : oracle st.prompts = true
      · rw [if_pos ho]; rfl
      · rw [if_neg ho]; rfl
  · rw [if_neg hA]
    constructor
    · intro hcontra
      exact absurd hcontra (by simp [Ev.isPrompt])
    · intro hrhs
      exact absurd ((are_bodies_similar_fst _ _ _).mpr hrhs) hA

/-- The detector state at the moment the second message of a fresh scan is
classified against the first. -/
def stW : DetState :=
  { seen := [(Msg.key (mkSample "aaaa" 0),
      mkSeenEntry "Inbox" (mkSample "aaaa" 0) "aaaa" (Msg.key (mkSample "aaaa" 0)))],
    marked := [], compared := [], patterns := emptyPatterns, prompts := 0, events := [.first] }

def seenW : SeenEntry := mkSeenEntry "Inbox" (mkSample "aaaa" 0) "aaaa" (Msg.key (mkSample "aaaa" 0))

/-- Witness for `c8_escalates_iff_strict` at a concrete input (ratio 3/4,
thresholds 1/2 and 7/10): the pair escalates. -/
theorem c8_escalates_iff_strict_witness :
    (detClassify cfgMain oracleYes stW (Msg.key (mkSample "aaab" 1)) seenW "aaab").isPrompt
      = true :=
  (c8_escalates_iff_strict cfgMain oracleYes stW (Msg.key (mkSample "aaab" 1)) seenW "aaab"
    (by decide) (by decide) (by decide) (by decide)).mpr
    ⟨by decide, by decide, by decide⟩

/-!  ## Claim C5 — empty inputs to the similarity computation -/

/-- Claim C5, amended: `are_bodies_similar` indeed returns score `0.0` when
either input is empty; but the whole-body comparison of the detector
(agent.py:129) calls `SequenceMatcher` directly, so when two same-key
messages both have empty normalized bodies the computed ratio is `1.0`, the
pair is classified Duplicate, and the *second message is marked for
deletion* (not retained). -/
theorem c5_empty_bodies (b1 b2 : String) (t : Frac) (cfg : Config)
    (oracle : Nat → Bool) (fn : String) (pr : Nat) (pats : Patterns) (m1 m2 : Msg)
    (hempty : b1 = "" ∨ b2 = "")
    (hkey : m1.key = m2.key)
    (hn1 : normalize_body m1.body = "") (hn2 : normalize_body m2.body = "")
    (hnd : containsKey (pairVal m1.key m1.key) pats.nonDuplicates = false) :
    (are_bodies_similar b1 b2 t).2 = fzero ∧
    (detRun cfg oracle fn pr pats [m1, m2]).marked.map (·.1) = [1] := by
  constructor
  · unfold are_bodies_similar
    rw [if_pos (by cases hempty <;> simp [*])]
  · show (detStep cfg oracle fn (detStep cfg oracle fn
        { seen := [], marked := [], compared := [], patterns := pats,
          prompts := pr, events := [] } 0 m1) 1 m2).marked.map (·.1) = [1]
    rw [show detStep cfg oracle fn
        { seen := [], marked := [], compared := [], patterns := pats,
          prompts := pr, events := [] } 0 m1 =
        { seen := [(m1.key, mkSeenEntry fn m1 "" m1.key)], marked := [],
          compared := [], patterns := pats, prompts := pr, events := [.first] } from by
      simp [detStep, dictFind, dictInsert, hn1]]
    unfold detStep
    dsimp only
    rw [show dictFind m2.key [(m1.key, mkSeenEntry fn m1 "" m1.key)] =
        some (mkSeenEntry fn m1 "" m1.key) from by
      simp [dictFind, hkey]]
    dsimp only
    rw [show detClassify cfg oracle
        { seen := [(m1.key, mkSeenEntry fn m1 "" m1.key)], marked := [],
          compared := [], patterns := pats, prompts := pr, events := [.first] }
        m2.key (mkSeenEntry fn m1 "" m1.key) (normalize_body m2.body) = Ev.dup from by
      unfold detClassify
      rw [if_neg (by simp)]
      rw [if_neg (by
        simp only [mkSeenEntry]
        rw [← hkey]
        simp [hnd])]
      rw [if_pos (by simp [mkSeenEntry, hn2, ratioF, Frac.feq, fone])]]
    simp [detApply]

/-- Witness for `c5_empty_bodies` at a concrete input: bodies `"ab"` and
`"cd"` normalize to the empty string and the second message is deleted. -/
theorem c5_empty_bodies_witness :
    (are_bodies_similar "" "xy" ⟨1, 2⟩).2 = fzero ∧
    (detRun cfgMain oracleNo "Inbox" 0 emptyPatterns msgPairE).marked.map (·.1) = [1] :=
  c5_empty_bodies "" "xy" ⟨1, 2⟩ cfgMain oracleNo "Inbox" 0 emptyPatterns
    (mkSample "ab" 0) (mkSample "cd" 1)
    (Or.inl rfl) (by decide) (by decide) (by decide) (by decide)

/-!  ## Claim C9 — phase invocations of the folder walk -/

theorem retPaths_nil : retPaths [] = [] := rfl

theorem retPaths_append (a b : List PEvent) : retPaths (a ++ b) = retPaths a ++ retPaths b :=
  List.filterMap_append a b _

theorem retPaths_cons_dup (p : List Nat) (evs : List PEvent) :
    retPaths (.dupPhase p :: evs) = retPaths evs := rfl

theorem retPaths_map_ret (l : List (List Nat)) :
    retPaths (l.map PEvent.retPhase) = l := by
  unfold retPaths
  rw [List.filterMap_map]
  exact List.filterMap_some l

theorem dupPaths_nil : dupPaths [] = [] := rfl

theorem dupPaths_append (a b : List PEvent) : dupPaths (a ++ b) = dupPaths a ++ dupPaths b :=
  List.filterMap_append a b _

theorem dupPaths_cons_dup (p : List Nat) (evs : List PEvent) :
    dupPaths (.dupPhase p :: evs) = p :: dupPaths evs := rfl

theorem dupPaths_map_ret (l : List (List Nat)) :
    dupPaths (l.map PEvent.retPhase) = [] := by
  unfold dupPaths
  rw [List.filterMap_map]
  exact List.filterMap_eq_nil_iff.mpr (fun a _ => rfl)

mutual
/-- The folders entered by the retention pass are exactly the preorder
folder paths. -/
theorem retainTrace_eq (path : List Nat) (f : Folder) :
    retainTrace path f = folderPaths path f := by
  cases f with
  | node n msgs subs =>
      simp only [retainTrace, folderPaths]
      rw [retainTraceList_eq path 0 subs]
theorem retainTraceList_eq (path : List Nat) (i : Nat) (subs : List Folder) :
    retainTraceList path i subs = folderPathsList path i subs := by
  cases subs with
  | nil => simp [retainTraceList, folderPathsList]
  | cons c rest =>
      simp only [retainTraceList, folderPathsList]
      rw [retainTrace_eq (path ++ [i]) c, retainTraceList_eq path (i + 1) rest]
end

mutual
/-- Every preorder path under `path` extends `path`. -/
theorem pathsShape (path : List Nat) (f : Folder) :
    ∀ q ∈ folderPaths path f, ∃ r, q = path ++ r := by
  cases f with
  | node n msgs subs =>
      intro q hq
      simp only [folderPaths, List.mem_cons] at hq
      cases hq with
      | inl h => exact ⟨[], by simp [h]⟩
      | inr h =>
          obtain ⟨j, r, _, hq⟩ := pathsShapeList path 0 subs q h
          exact ⟨j :: r, hq⟩
theorem pathsShapeList (path : List Nat) (i : Nat) (subs : List Folder) :
    ∀ q ∈ folderPathsList path i subs, ∃ j r, i ≤ j ∧ q = path ++ j :: r := by
  cases subs with
  | nil => intro q hq; simp [folderPathsList] at hq
  | cons c rest =>
      intro q hq
      simp only [folderPathsList, List.mem_append] at hq
      cases hq with
      | inl h =>
          obtain ⟨r, hr⟩ := pathsShape (path ++ [i]) c q h
          exact ⟨i, r, le_rfl, by simp [hr]⟩
      | inr h =>
          obtain ⟨j, r, hj, hq⟩ := pathsShapeList path (i + 1) rest q h
          exact ⟨j, r, by omega, hq⟩
end

/-- A path that descends into a subtree list is strictly longer than the
root path, hence different from it. -/
theorem pathNeOfShape {path q : List Nat} {j : Nat} {r : List Nat}
    (hq : q = path ++ j :: r) : q ≠ path := by
  intro habs
  have h1 : q.length = path.length + (r.length + 1) := by
    rw [hq]
    simp only [List.length_append, List.length_cons]
  rw [habs] at h1
  omega

/-- Paths descending into different children differ. -/
theorem pathNeOfChildIdx {path q q' : List Nat} {i j : Nat} {r r' : List Nat}
    (h1 : q = path ++ [i] ++ r) (h2 : q' = path ++ j :: r') (hij : i + 1 ≤ j) :
    q ≠ q' := by
  intro habs
  rw [h1, h2] at habs
  have habs2 : path ++ i :: r = path ++ j :: r' := by simpa using habs
  have hcc := List.append_cancel_left habs2
  simp only [List.cons.injEq] at hcc
  omega

mutual
/-- Preorder paths are pairwise distinct: a member occurs exactly once. -/
theorem pathsCount (path : List Nat) (f : Folder) :
    ∀ q ∈ folderPaths path f, (folderPaths path f).count q = 1 := by
  cases f with
  | node n msgs subs =>
      intro q hq
      simp only [folderPaths, List.mem_cons] at hq
      simp only [folderPaths, List.count_cons]
      cases hq with
      | inl h =>
          have hz : (folderPathsList path 0 subs).count q = 0 := by
            apply List.count_eq_zero_of_not_mem
            intro hmem
            obtain ⟨j, r, _, habs⟩ := pathsShapeList path 0 subs q hmem
            exact pathNeOfShape habs h
          rw [hz, h]
          simp
      | inr h =>
          rw [pathsCountList path 0 subs q h]
          obtain ⟨j, r, _, hq'⟩ := pathsShapeList path 0 subs q h
          have hne : (path == q) = false := by
            simp only [beq_eq_false_iff_ne]
            exact (pathNeOfShape hq').symm
          rw [hne]
          simp
theorem pathsCountList (path : List Nat) (i : Nat) (subs : List Folder) :
    ∀ q ∈ folderPathsList path i subs, (folderPathsList path i subs).count q = 1 := by
  cases subs with
  | nil => intro q hq; simp [folderPathsList] at hq
  | cons c rest =>
      intro q hq
      simp only [folderPathsList, List.mem_append] at hq
      simp only [folderPathsList, List.count_append]
      cases hq with
      | inl h =>
          obtain ⟨r, hr⟩ := pathsShape (path ++ [i]) c q h
          have hz : (folderPathsList path (i + 1) rest).count q = 0 := by
            apply List.count_eq_zero_of_not_mem
            intro hmem
            obtain ⟨j, r', hj, hq'⟩ := pathsShapeList path (i + 1) rest q hmem
            exact pathNeOfChildIdx hr hq' hj rfl
          rw [pathsCount (path ++ [i]) c q h, hz]
      | inr h =>
          obtain ⟨j, r', hj, hq'⟩ := pathsShapeList path (i + 1) rest q h
          have hz : (folderPaths (path ++ [i]) c).count q = 0 := by
            apply List.count_eq_zero_of_not_mem
            intro hmem
            obtain ⟨r, hr⟩ := pathsShape (path ++ [i]) c q hmem
            exact (pathNeOfChildIdx hr hq' hj) rfl
          rw [pathsCountList path (i + 1) rest q h, hz]
end

mutual
/-- Shape of the retention invocations of a walk. -/
theorem retShape (path : List Nat) (f : Folder) :
    ∀ q ∈ retPaths (walkTrace path f), ∃ r, q = path ++ r := by
  cases f with
  | node n msgs subs =>
      intro q hq
      rw [walkTrace] at hq
      rw [retPaths_cons_dup, retPaths_append, retPaths_map_ret, retainTrace_eq] at hq
      rcases List.mem_append.mp hq with h | h
      · exact pathsShape path (.node n msgs subs) q h
      · obtain ⟨j, r, _, hq'⟩ := retShapeList path 0 subs q h
        exact ⟨j :: r, hq'⟩
theorem retShapeList (path : List Nat) (i : Nat) (subs : List Folder) :
    ∀ q ∈ retPaths (walkTraceList path i subs), ∃ j r, i ≤ j ∧ q = path ++ j :: r := by
  cases subs with
  | nil => intro q hq; simp [walkTraceList, retPaths_nil] at hq
  | cons c rest =>
      intro q hq
      rw [walkTraceList, retPaths_append] at hq
      rcases List.mem_append.mp hq with h | h
      · obtain ⟨r, hr⟩ := retShape (path ++ [i]) c q h
        exact ⟨i, r, le_rfl, by simp [hr]⟩
      · obtain ⟨j, r, hj, hq'⟩ := retShapeList path (i + 1) rest q h
        exact ⟨j, r, by omega, hq'⟩
end

mutual
/-- The retention pass is entered `depth + 1` times on every folder: once
from `process_folder` at each ancestor-or-self of the folder. -/
theorem retCount (path : List Nat) (f : Folder) :
    ∀ q ∈ folderPaths path f,
      (retPaths (walkTrace path f)).count q = q.length - path.length + 1 := by
  cases f with
  | node n msgs subs =>
      intro q hq
      rw [walkTrace, retPaths_cons_dup, retPaths_append, retPaths_map_ret, retainTrace_eq,
        List.count_append]
      rw [pathsCount path (.node n msgs subs) q hq]
      simp only [folderPaths, List.mem_cons] at hq
      cases hq with
      | inl h =>
          have hz : (retPaths (walkTraceList path 0 subs)).count q = 0 := by
            apply List.count_eq_zero_of_not_mem
            intro hmem
            obtain ⟨j, r, _, habs⟩ := retShapeList path 0 subs q hmem
            exact pathNeOfShape habs h
          rw [hz, h]
          omega
      | inr h =>
          rw [retCountList path 0 subs q h]
          obtain ⟨j, r, _, hq'⟩ := pathsShapeList path 0 subs q h
          have hlen : q.length = path.length + (r.length + 1) := by
            rw [hq']
            simp only [List.length_append, List.length_cons]
          omega
theorem retCountList (path : List Nat) (i : Nat) (subs : List Folder) :
    ∀ q ∈ folderPathsList path i subs,
      (retPaths (walkTraceList path i subs)).count q = q.length - path.length := by
  cases subs with
  | nil => intro q hq; simp [folderPathsList] at hq
  | cons c rest =>
      intro q hq
      rw [walkTraceList, retPaths_append, List.count_append]
      simp only [folderPathsList, List.mem_append] at hq
      cases hq with
      | inl h =>
          obtain ⟨r, hr⟩ := pathsShape (path ++ [i]) c q h
          have hz : (retPaths (walkTraceList path (i + 1) rest)).count q = 0 := by
            apply List.count_eq_zero_of_not_mem
            intro hmem
            obtain ⟨j, r', hj, hq'⟩ := retShapeList path (i + 1) rest q hmem
            exact pathNeOfChildIdx hr hq' hj rfl
          rw [retCount (path ++ [i]) c q h, hz]
          have hlen : q.length = path.length + 1 + r.length := by
            rw [hr]
            simp only [List.length_append, List.length_cons, List.length_nil]
          have hpl : (path ++ [i]).length = path.length + 1 := by
            simp
          omega
      | inr h =>
          obtain ⟨j, r', hj, hq'⟩ := pathsShapeList path (i + 1) rest q h
          have hz : (retPaths (walkTrace (path ++ [i]) c)).count q = 0 := by
            apply List.count_eq_zero_of_not_mem
            intro hmem
            obtain ⟨r, hr⟩ := retShape (path ++ [i]) c q hmem
            exact pathNeOfChildIdx hr hq' hj rfl
          rw [retCountList path (i + 1) rest q h, hz]
          omega
end

mutual
/-- The duplicate detector is invoked exactly once per folder, in depth-first
preorder. -/
theorem dupTrace_eq (path : List Nat) (f : Folder) :
    dupPaths (walkTrace path f) = folderPaths path f := by
  cases f with
  | node n msgs subs =>
      rw [walkTrace, dupPaths_cons_dup, dupPaths_append, dupPaths_map_ret,
        dupTraceList_eq path 0 subs]
      simp [folderPaths]
theorem dupTraceList_eq (path : List Nat) (i : Nat) (subs : List Folder) :
    dupPaths (walkTraceList path i subs) = folderPathsList path i subs := by
  cases subs with
  | nil => simp [walkTraceList, folderPathsList, dupPaths_nil]
  | cons c rest =>
      rw [walkTraceList, dupPaths_append, dupTrace_eq (path ++ [i]) c,
        dupTraceList_eq path (i + 1) rest]
      simp [folderPathsList]
end

/-- Claim C9, amended: one full run of the walker performs the duplicate
detection exactly once per folder, in depth-first preorder; the retention
pass, however, runs `depth + 1` times on a folder at depth `d` — once from
`process_folder` at the folder itself and once from the retention pass of
each proper ancestor, since `retain_most_recent_emails` recurses into
subfolders on its own (agent.py:240-243). -/
theorem c9_walk_invocations (t : Folder) :
    dupPaths (walkTrace [] t) = folderPaths [] t ∧
    ∀ p ∈ folderPaths [] t, (retPaths (walkTrace [] t)).count p = p.length + 1 := by
  refine ⟨dupTrace_eq [] t, ?_⟩
  intro p hp
  have := retCount [] t p hp
  simpa using this

/-- Witness for `c9_walk_invocations` at a concrete tree: the subfolder of
the sample tree is at depth 1 and its retention pass runs twice. -/
theorem c9_walk_invocations_witness :
    (retPaths (walkTrace [] sampleTree)).count [0] = [0].length + 1 :=
  (c9_walk_invocations sampleTree).2 [0] (by simp [sampleTree, folderPaths, folderPathsList])

/-!  ## Claim C4 — the retention invariant -/

theorem dictFind_insert_self {κ α : Type} [DecidableEq κ] (k : κ) (v : α) :
    ∀ l : List (κ × α), dictFind k (dictInsert k v l) = some v
  | [] => by simp [dictInsert, dictFind]
  | (k', v') :: rest => by
      by_cases h : k' = k
      · simp [dictInsert, dictFind, h]
      · simp only [dictInsert, if_neg h, dictFind]
        exact dictFind_insert_self k v rest

theorem dictFind_insert_ne {κ α : Type} [DecidableEq κ] (k k' : κ) (v : α)
    (hne : k' ≠ k) : ∀ l : List (κ × α), dictFind k' (dictInsert k v l) = dictFind k' l
  | [] => by simp [dictInsert, dictFind, Ne.symm hne]
  | (k0, v0) :: rest => by
      by_cases h : k0 = k
      · subst h
        simp [dictInsert, dictFind, Ne.symm hne]
      · simp only [dictInsert, if_neg h, dictFind]
        by_cases h2 : k0 = k'
        · simp [h2]
        · rw [if_neg h2, if_neg h2]
          exact dictFind_insert_ne k k' v hne rest

theorem get?_snoc {α : Type} (l : List α) (a : α) (j : Nat) :
    (l ++ [a]).get? j =
      if j < l.length then l.get? j else if j = l.length then some a else none := by
  by_cases h1 : j < l.length
  · rw [if_pos h1, List.get?_append h1]
  · rw [if_neg h1]
    by_cases h2 : j = l.length
    · rw [if_pos h2, h2, List.get?_concat_length]
    · rw [if_neg h2, List.get?_eq_none]
      simp only [List.length_append, List.length_cons, List.length_nil]
      omega

/-- Two distinct members force length at least two. -/
theorem two_le_length_of_two_mem {α : Type} {l : List α} {a b : α}
    (ha : a ∈ l) (hb : b ∈ l) (hne : a ≠ b) : 2 ≤ l.length := by
  cases l with
  | nil => simp at ha
  | cons x rest =>
      cases rest with
      | nil =>
          simp only [List.mem_singleton] at ha hb
          exact absurd (ha.trans hb.symm) hne
      | cons y rest2 => simp only [List.length_cons]; omega

/-- If a message matches exactly one filter in the list, `find?` locates any
filter it matches. -/
theorem findUnique (filters : List String) (m : Msg) (F : String)
    (hF : F ∈ filters) (hm : msgMatches F m = true)
    (hsm : (filters.filter (fun f => msgMatches f m)).length ≤ 1) :
    filters.find? (fun f => msgMatches f m) = some F := by
  induction filters with
  | nil => simp at hF
  | cons g rest ih =>
      by_cases hg : msgMatches g m = true
      · rw [show (g :: rest).find? (fun f => msgMatches f m) = some g from by
          simp [List.find?_cons, hg]]
        rcases List.mem_cons.mp hF with h | h
        · rw [h]
        · exfalso
          have hfc : (g :: rest).filter (fun f => msgMatches f m) =
              g :: rest.filter (fun f => msgMatches f m) := by
            simp [List.filter_cons, hg]
          rw [hfc] at hsm
          simp only [List.length_cons] at hsm
          have hnil : rest.filter (fun f => msgMatches f m) = [] := by
            apply List.eq_nil_of_length_eq_zero; omega
          have hFr : F ∈ rest.filter (fun f => msgMatches f m) :=
            List.mem_filter.mpr ⟨h, hm⟩
          rw [hnil] at hFr
          simp at hFr
      · have hg' : msgMatches g m = false := by simpa using hg
        rw [show (g :: rest).find? (fun f => msgMatches f m) =
            rest.find? (fun f => msgMatches f m) from by
          simp [List.find?_cons, hg']]
        have hFne : F ≠ g := fun habs => hg (habs ▸ hm)
        have hFr : F ∈ rest := by
          rcases List.mem_cons.mp hF with h | h
          · exact absurd h hFne
          · exact h
        have hsm2 : (rest.filter (fun f => msgMatches f m)).length ≤ 1 := by
          have hfc : (g :: rest).filter (fun f => msgMatches f m) =
              rest.filter (fun f => msgMatches f m) := by
            simp [List.filter_cons, hg']
          rw [hfc] at hsm
          exact hsm
        exact ih hFr hsm2

/-- The invariant of the first retention loop after processing the prefix
`done` of the folder: queued deletions point at processed messages that match
a filter and are never the current best of any filter; each filter's best is
a processed match of maximal `received_at`; every processed match is either
the filter's current best or queued for deletion; and a filter with no best
has no processed match. -/
def RInv (filters : List String) (done : List Msg) (st : RetState) : Prop :=
  (∀ p ∈ st.toDelete, done.get? p.1 = some p.2 ∧ p.1 < done.length ∧
      filters.any (fun f => msgMatches f p.2) = true) ∧
  (∀ F b, dictFind F st.best = some b →
      F ∈ filters ∧ done.get? b.1 = some b.2 ∧ b.1 < done.length ∧
      msgMatches F b.2 = true ∧
      (∀ j m', done.get? j = some m' → msgMatches F m' = true →
        tsLt b.2.received m'.received = false) ∧
      (∀ p ∈ st.toDelete, p.1 ≠ b.1)) ∧
  (∀ F ∈ filters, ∀ j m', done.get? j = some m' → msgMatches F m' = true →
      (∃ b, dictFind F st.best = some b ∧ b.1 = j ∧ b.2 = m') ∨
      (∃ p ∈ st.toDelete, p.1 = j)) ∧
  (∀ F ∈ filters, dictFind F st.best = none → ∀ m' ∈ done, msgMatches F m' = false)

theorem tsLt_irrefl (t : Timestamp) : tsLt t t = false := by
  unfold tsLt
  simp

/-- If `a < b` and `a` is not below `c`, then `b` is not below `c`
(datetimes are totally ordered). -/
theorem tsLt_shift (a b c : Timestamp) (h1 : tsLt a b = true) (h2 : tsLt a c = false) :
    tsLt b c = false := by
  cases a with
  | mk da ta =>
    cases da with
    | mk y1 mo1 d1 =>
      cases b with
      | mk db tb =>
        cases db with
        | mk y2 mo2 d2 =>
          cases c with
          | mk dc tc =>
            cases dc with
            | mk y3 mo3 d3 =>
              unfold tsLt at *
              rw [Bool.eq_false_iff] at h2 ⊢
              simp only [Ne, Bool.or_eq_true, Bool.and_eq_true, decide_eq_true_eq,
                Date.mk.injEq] at h1 h2 ⊢
              omega

theorem get?_mem_of_some {α : Type} {l : List α} {j : Nat} {a : α}
    (h : l.get? j = some a) : a ∈ l := List.get?_mem h

/-- Distinct filters have bests at distinct positions when each processed
message matches at most one filter. -/
theorem bests_distinct (filters : List String) (done : List Msg) (st : RetState)
    (hinv : RInv filters done st)
    (hsmd : ∀ m' ∈ done, (filters.filter (fun f => msgMatches f m')).length ≤ 1)
    (F F' : String) (b b' : Nat × Msg) (hFF : F ≠ F')
    (hb : dictFind F st.best = some b) (hb' : dictFind F' st.best = some b') :
    b.1 ≠ b'.1 := by
  intro heq
  obtain ⟨hFin, hget, _, hmatch, _, _⟩ := hinv.2.1 F b hb
  obtain ⟨hFin', hget', _, hmatch', _, _⟩ := hinv.2.1 F' b' hb'
  rw [heq] at hget
  have hbb : b.2 = b'.2 := by
    have := hget.symm.trans hget'
    exact Option.some.inj this
  have hmem : b'.2 ∈ done := get?_mem_of_some hget'
  have h2 := hsmd b'.2 hmem
  have hmF : F ∈ filters.filter (fun f => msgMatches f b'.2) :=
    List.mem_filter.mpr ⟨hFin, by
      show msgMatches F b'.2 = true
      rw [← hbb]; exact hmatch⟩
  have hmF' : F' ∈ filters.filter (fun f => msgMatches f b'.2) :=
    List.mem_filter.mpr ⟨hFin', hmatch'⟩
  have h3 := two_le_length_of_two_mem hmF hmF' hFF
  omega

/-- Extending the processed prefix by one message preserves a best's
maximality, provided the new message does not beat it. -/
theorem maximality_snoc (F : String) (done : List Msg) (m : Msg) (b2 : Msg)
    (hmax : ∀ j m', done.get? j = some m' → msgMatches F m' = true →
      tsLt b2.received m'.received = false)
    (hm : msgMatches F m = true → tsLt b2.received m.received = false) :
    ∀ j m', (done ++ [m]).get? j = some m' → msgMatches F m' = true →
      tsLt b2.received m'.received = false := by
  intro j m' hj hmatch
  rw [get?_snoc] at hj
  split at hj
  · exact hmax j m' hj hmatch
  · split at hj
    · rw [Option.some.inj hj] at hm
      exact hm hmatch
    · cases hj

/-- One step of the first retention loop preserves the invariant. -/
theorem retStep_inv (filters : List String) (done : List Msg) (st : RetState) (m : Msg)
    (hsm : (filters.filter (fun f => msgMatches f m)).length ≤ 1)
    (hsmd : ∀ m' ∈ done, (filters.filter (fun f => msgMatches f m')).length ≤ 1)
    (hinv : RInv filters done st) :
    RInv filters (done ++ [m]) (retStep filters st done.length m) := by
  obtain ⟨hA, hC, hD, hE⟩ := hinv
  have hsnoclen : (done ++ [m]).length = done.length + 1 := by simp
  have hAext : ∀ td : List (Nat × Msg),
      (∀ p ∈ td, done.get? p.1 = some p.2 ∧ p.1 < done.length ∧
        filters.any (fun f => msgMatches f p.2) = true) →
      (∀ p ∈ td, (done ++ [m]).get? p.1 = some p.2 ∧ p.1 < (done ++ [m]).length ∧
        filters.any (fun f => msgMatches f p.2) = true) := by
    intro td h p hp
    obtain ⟨h1, h2, h3⟩ := h p hp
    refine ⟨?_, ?_, h3⟩
    · rw [get?_snoc, if_pos h2]; exact h1
    · omega
  have hgetm : (done ++ [m]).get? done.length = some m := by
    rw [get?_snoc, if_neg (by omega), if_pos rfl]
  unfold retStep
  by_cases hany : filters.any (fun f => msgMatches f m) = true
  swap
  · rw [if_neg hany]
    have hnom : ∀ F ∈ filters, msgMatches F m = false := by
      intro F hF
      by_contra hcon
      exact hany (List.any_eq_true.mpr ⟨F, hF, by simpa using hcon⟩)
    refine ⟨hAext st.toDelete hA, ?_, ?_, ?_⟩
    · intro F b hFb
      obtain ⟨h1, h2, h3, h4, h5, h6⟩ := hC F b hFb
      refine ⟨h1, by rw [get?_snoc, if_pos h3]; exact h2, by omega, h4, ?_, h6⟩
      exact maximality_snoc F done m b.2 h5
        (fun hmm => absurd (hnom F h1) (by rw [hmm]; simp))
    · intro F hF j m' hj hmatch
      rw [get?_snoc] at hj
      split at hj
      · exact hD F hF j m' hj hmatch
      · split at hj
        · rw [← Option.some.inj hj] at hmatch
          exact absurd (hnom F hF) (by rw [hmatch]; simp)
        · cases hj
    · intro F hF hnone m' hmem
      rcases List.mem_append.mp hmem with h | h
      · exact hE F hF hnone m' h
      · rw [List.mem_singleton.mp h]
        exact hnom F hF
  · rw [if_pos hany]
    obtain ⟨f0, hf0mem, hf0m⟩ := List.any_eq_true.mp hany
    have hf0m' : msgMatches f0 m = true := hf0m
    have hfind : filters.find? (fun f => msgMatches f m) = some f0 :=
      findUnique filters m f0 hf0mem hf0m' hsm
    have hFonly : ∀ F ∈ filters, msgMatches F m = true → F = f0 := by
      intro F hF hm
      have := findUnique filters m F hF hm hsm
      exact Option.some.inj (this.symm.trans hfind)
    split
    rotate_left
    next heq => rw [hfind] at heq; cases heq
    next f hfeq =>
      have hf : f = f0 := Option.some.inj (hfeq.symm.trans hfind)
      subst hf
      rcases hbest : dictFind f st.best with _ | b
      · -- first match for this filter: install it as best
        refine ⟨hAext st.toDelete hA, ?_, ?_, ?_⟩
        · intro F b' hFb'
          by_cases hFf : F = f
          · subst hFf
            rw [dictFind_insert_self] at hFb'
            have hb' : b' = (done.length, m) := (Option.some.inj hFb').symm
            subst hb'
            refine ⟨hf0mem, hgetm, by omega, hf0m', ?_, ?_⟩
            · refine maximality_snoc F done m m ?_ (fun _ => tsLt_irrefl m.received)
              intro j m' hj hmatch
              have := hE F hf0mem hbest m' (get?_mem_of_some hj)
              rw [hmatch] at this
              cases this
            · intro p hp
              have := (hA p hp).2.1
              omega
          · rw [dictFind_insert_ne f F _ hFf] at hFb'
            obtain ⟨h1, h2, h3, h4, h5, h6⟩ := hC F b' hFb'
            refine ⟨h1, by rw [get?_snoc, if_pos h3]; exact h2, by omega, h4, ?_, h6⟩
            exact maximality_snoc F done m b'.2 h5
              (fun hmm => absurd (hFonly F h1 hmm) hFf)
        · intro F hF j m' hj hmatch
          rw [get?_snoc] at hj
          split at hj
          · rcases hD F hF j m' hj hmatch with ⟨b', hb', hj', hm'⟩ | hdel
            · by_cases hFf : F = f
              · subst hFf
                rw [hbest] at hb'
                cases hb'
              · exact Or.inl ⟨b', by rw [dictFind_insert_ne f F _ hFf]; exact hb', hj', hm'⟩
            · exact Or.inr hdel
          · split at hj
            · rename_i hlt hlen
              rw [← Option.some.inj hj] at hmatch
              have hFf : F = f := hFonly F hF hmatch
              subst hFf
              refine Or.inl ⟨(done.length, m), by rw [dictFind_insert_self], by omega, ?_⟩
              exact (Option.some.inj hj)
            · cases hj
        · intro F hF hnone m' hmem
          by_cases hFf : F = f
          · subst hFf
            rw [dictFind_insert_self] at hnone
            cases hnone
          · rw [dictFind_insert_ne f F _ hFf] at hnone
            rcases List.mem_append.mp hmem with h | h
            · exact hE F hF hnone m' h
            · rw [List.mem_singleton.mp h]
              by_contra hcon
              exact hFf (hFonly F hF (by simpa using hcon))
      · -- the filter already has a best
        obtain ⟨hb1, hb2, hb3, hb4, hb5, hb6⟩ := hC f b hbest
        dsimp only
        by_cases hlt : tsLt b.2.received m.received = true
        · rw [if_pos hlt]
          refine ⟨?_, ?_, ?_, ?_⟩
          · intro p hp
            rcases List.mem_append.mp hp with h | h
            · exact hAext st.toDelete hA p h
            · rw [List.mem_singleton.mp h]
              refine ⟨by rw [get?_snoc, if_pos hb3]; exact hb2, by omega, ?_⟩
              exact List.any_eq_true.mpr ⟨f, hb1, hb4⟩
          · intro F b' hFb'
            by_cases hFf : F = f
            · subst hFf
              rw [dictFind_insert_self] at hFb'
              have hb' : b' = (done.length, m) := (Option.some.inj hFb').symm
              subst hb'
              refine ⟨hf0mem, hgetm, by omega, hf0m', ?_, ?_⟩
              · refine maximality_snoc F done m m ?_ (fun _ => tsLt_irrefl m.received)
                intro j m' hj hmatch
                exact tsLt_shift b.2.received m.received m'.received hlt
                  (hb5 j m' hj hmatch)
              · intro p hp
                rcases List.mem_append.mp hp with h | h
                · have := (hA p h).2.1
                  omega
                · rw [List.mem_singleton.mp h]
                  simp only
                  omega
            · rw [dictFind_insert_ne f F _ hFf] at hFb'
              obtain ⟨h1, h2, h3, h4, h5, h6⟩ := hC F b' hFb'
              refine ⟨h1, by rw [get?_snoc, if_pos h3]; exact h2, by omega, h4, ?_, ?_⟩
              · exact maximality_snoc F done m b'.2 h5
                  (fun hmm => absurd (hFonly F h1 hmm) hFf)
              · intro p hp
                rcases List.mem_append.mp hp with h | h
                · exact h6 p h
                · rw [List.mem_singleton.mp h]
                  exact bests_distinct filters done st ⟨hA, hC, hD, hE⟩ hsmd f F b b'
                    (fun habs => hFf habs.symm) hbest hFb'
          · intro F hF j m' hj hmatch
            rw [get?_snoc] at hj
            split at hj
            · rcases hD F hF j m' hj hmatch with ⟨b', hb', hj', hm'⟩ | hdel
              · by_cases hFf : F = f
                · subst hFf
                  rw [hbest] at hb'
                  have hbb : b' = b := (Option.some.inj hb').symm
                  subst hbb
                  exact Or.inr ⟨b', List.mem_append.mpr (Or.inr (List.mem_singleton.mpr rfl)), hj'⟩
                · exact Or.inl ⟨b', by rw [dictFind_insert_ne f F _ hFf]; exact hb', hj', hm'⟩
              · exact Or.inr (by
                  obtain ⟨p, hp, hpj⟩ := hdel
                  exact ⟨p, List.mem_append.mpr (Or.inl hp), hpj⟩)
            · split at hj
              · rename_i hlt2 hlen
                rw [← Option.some.inj hj] at hmatch
                have hFf : F = f := hFonly F hF hmatch
                subst hFf
                refine Or.inl ⟨(done.length, m), by rw [dictFind_insert_self], by omega, ?_⟩
                exact Option.some.inj hj
              · cases hj
          · intro F hF hnone m' hmem
            by_cases hFf : F = f
            · subst hFf
              rw [dictFind_insert_self] at hnone
              cases hnone
            · rw [dictFind_insert_ne f F _ hFf] at hnone
              rcases List.mem_append.mp hmem with h | h
              · exact hE F hF hnone m' h
              · rw [List.mem_singleton.mp h]
                by_contra hcon
                exact hFf (hFonly F hF (by simpa using hcon))
        · rw [if_neg hlt]
          have hnlt : tsLt b.2.received m.received = false := by
            simpa using hlt
          refine ⟨?_, ?_, ?_, ?_⟩
          · intro p hp
            rcases List.mem_append.mp hp with h | h
            · exact hAext st.toDelete hA p h
            · rw [List.mem_singleton.mp h]
              exact ⟨hgetm, by omega, List.any_eq_true.mpr ⟨f, hf0mem, hf0m'⟩⟩
          · intro F b' hFb'
            obtain ⟨h1, h2, h3, h4, h5, h6⟩ := hC F b' hFb'
            refine ⟨h1, by rw [get?_snoc, if_pos h3]; exact h2, by omega, h4, ?_, ?_⟩
            · refine maximality_snoc F done m b'.2 h5 ?_
              intro hmm
              have hFf : F = f := hFonly F h1 hmm
              subst hFf
              have hbb : b' = b := Option.some.inj (hFb'.symm.trans hbest)
              rw [hbb]
              exact hnlt
            · intro p hp
              rcases List.mem_append.mp hp with h | h
              · exact h6 p h
              · rw [List.mem_singleton.mp h]
                simp only
                omega
          · intro F hF j m' hj hmatch
            rw [get?_snoc] at hj
            split at hj
            · rcases hD F hF j m' hj hmatch with ⟨b', hb', hj', hm'⟩ | hdel
              · exact Or.inl ⟨b', hb', hj', hm'⟩
              · exact Or.inr (by
                  obtain ⟨p, hp, hpj⟩ := hdel
                  exact ⟨p, List.mem_append.mpr (Or.inl hp), hpj⟩)
            · split at hj
              · rename_i hlt2 hlen
                refine Or.inr ⟨(done.length, m),
                  List.mem_append.mpr (Or.inr (List.mem_singleton.mpr rfl)), by omega⟩
              · cases hj
          · intro F hF hnone m' hmem
            rcases List.mem_append.mp hmem with h | h
            · exact hE F hF hnone m' h
            · rw [List.mem_singleton.mp h]
              by_contra hcon
              have hFf : F = f := hFonly F hF (by simpa using hcon)
              subst hFf
              rw [hbest] at hnone
              cases hnone

/-- The first retention loop establishes the invariant over the whole folder. -/
theorem retGo_inv (filters : List String) :
    ∀ (rem done : List Msg) (st : RetState),
      (∀ m' ∈ done ++ rem, (filters.filter (fun f => msgMatches f m')).length ≤ 1) →
      RInv filters done st →
      RInv filters (done ++ rem) (retGo filters st done.length rem) := by
  intro rem
  induction rem with
  | nil =>
      intro done st _ hinv
      simpa using hinv
  | cons m rest ih =>
      intro done st hsm hinv
      show RInv filters (done ++ m :: rest)
        (retGo filters (retStep filters st done.length m) (done.length + 1) rest)
      have hstep := retStep_inv filters done st m
        (hsm m (by simp)) (fun m' hm' => hsm m' (by simp [hm'])) hinv
      have hih := ih (done ++ [m]) (retStep filters st done.length m)
        (by intro m' hm'; apply hsm; simpa using hm') hstep
      rw [show (done ++ [m]).length = done.length + 1 from by simp] at hih
      simpa using hih

theorem retRun_inv (filters : List String) (msgs : List Msg)
    (hsm : ∀ m' ∈ msgs, (filters.filter (fun f => msgMatches f m')).length ≤ 1) :
    RInv filters msgs (retRun filters msgs) := by
  have hinit : RInv filters [] { best := [], toDelete := [] } := by
    refine ⟨?_, ?_, ?_, ?_⟩
    · intro p hp; simp at hp
    · intro F b h; simp [dictFind] at h
    · intro F _ j m' hj; simp at hj
    · intro F _ _ m' hm'; simp at hm'
  have := retGo_inv filters msgs [] { best := [], toDelete := [] }
    (by simpa using hsm) hinit
  simpa using this

/-- If every matching position is deleted, no survivor matches. -/
theorem removeMarked_filter_nil (del : List Nat) (P : Msg → Bool) :
    ∀ (msgs : List Msg) (i0 : Nat),
      (∀ j m', msgs.get? j = some m' → P m' = true → del.contains (i0 + j) = true) →
      (removeMarked del i0 msgs).filter P = [] := by
  intro msgs
  induction msgs with
  | nil => intro i0 _; rfl
  | cons m rest ih =>
      intro i0 h
      unfold removeMarked
      by_cases hc : del.contains i0 = true
      · rw [if_pos hc]
        refine ih (i0 + 1) ?_
        intro j m' hj hp
        have := h (j + 1) m' (by simpa using hj) hp
        rwa [show i0 + (j + 1) = i0 + 1 + j from by omega] at this
      · rw [if_neg hc]
        have hPm : P m = false := by
          by_contra hcon
          exact hc (h 0 m rfl (by simpa using hcon))
        rw [List.filter_cons, if_neg (by simp [hPm])]
        refine ih (i0 + 1) ?_
        intro j m' hj hp
        have := h (j + 1) m' (by simpa using hj) hp
        rwa [show i0 + (j + 1) = i0 + 1 + j from by omega] at this

/-- If every matching position is deleted or equals a single index, at most
one survivor matches. -/
theorem removeMarked_filter_le_one (del : List Nat) (P : Msg → Bool) (bi : Nat) :
    ∀ (msgs : List Msg) (i0 : Nat),
      (∀ j m', msgs.get? j = some m' → P m' = true →
        (del.contains (i0 + j) = true ∨ i0 + j = bi)) →
      ((removeMarked del i0 msgs).filter P).length ≤ 1 := by
  intro msgs
  induction msgs with
  | nil => intro i0 _; simp [removeMarked]
  | cons m rest ih =>
      intro i0 h
      unfold removeMarked
      by_cases hc : del.contains i0 = true
      · rw [if_pos hc]
        refine ih (i0 + 1) ?_
        intro j m' hj hp
        have := h (j + 1) m' (by simpa using hj) hp
        rwa [show i0 + (j + 1) = i0 + 1 + j from by omega] at this
      · rw [if_neg hc]
        by_cases hPm : P m = true
        · have hbi : i0 = bi := by
            rcases h 0 m rfl hPm with hdel | hdel
            · exact absurd hdel hc
            · simpa using hdel
          rw [List.filter_cons, if_pos (by simp [hPm])]
          have hnil : (removeMarked del (i0 + 1) rest).filter P = [] := by
            refine removeMarked_filter_nil del P rest (i0 + 1) ?_
            intro j m' hj hp
            have := h (j + 1) m' (by simpa using hj) hp
            rcases this with hdel | hdel
            · rwa [show i0 + (j + 1) = i0 + 1 + j from by omega] at hdel
            · omega
          rw [hnil]
          simp
        · rw [List.filter_cons, if_neg (by simpa using hPm)]
          refine ih (i0 + 1) ?_
          intro j m' hj hp
          have := h (j + 1) m' (by simpa using hj) hp
          rwa [show i0 + (j + 1) = i0 + 1 + j from by omega] at this

/-- A message at an undeleted position survives. -/
theorem removeMarked_mem (del : List Nat) :
    ∀ (msgs : List Msg) (i0 j : Nat) (m' : Msg),
      msgs.get? j = some m' → del.contains (i0 + j) = false →
      m' ∈ removeMarked del i0 msgs := by
  intro msgs
  induction msgs with
  | nil => intro i0 j m' hj; cases j <;> cases hj
  | cons m rest ih =>
      intro i0 j m' hj hc
      unfold removeMarked
      cases j with
      | zero =>
          have hm : m = m' := Option.some.inj hj
          rw [if_neg (by simpa using hc)]
          rw [hm]
          exact List.mem_cons_self _ _
      | succ j' =>
          have hj' : rest.get? j' = some m' := by simpa using hj
          have hc' : del.contains (i0 + 1 + j') = false := by
            rwa [show i0 + 1 + j' = i0 + (j' + 1) from by omega]
          by_cases hch : del.contains i0 = true
          · rw [if_pos hch]
            exact ih (i0 + 1) j' m' hj' hc'
          · rw [if_neg hch]
            exact List.mem_cons_of_mem _ (ih (i0 + 1) j' m' hj' hc')

/-- Survivors come from the folder. -/
theorem removeMarked_subset (del : List Nat) :
    ∀ (msgs : List Msg) (i0 : Nat) (m' : Msg),
      m' ∈ removeMarked del i0 msgs → m' ∈ msgs := by
  intro msgs
  induction msgs with
  | nil => intro i0 m' h; simpa [removeMarked] using h
  | cons m rest ih =>
      intro i0 m' h
      unfold removeMarked at h
      by_cases hc : del.contains i0 = true
      · rw [if_pos hc] at h
        exact List.mem_cons_of_mem _ (ih (i0 + 1) m' h)
      · rw [if_neg hc] at h
        rcases List.mem_cons.mp h with h | h
        · exact List.mem_cons.mpr (Or.inl h)
        · exact List.mem_cons_of_mem _ (ih (i0 + 1) m' h)

theorem contains_map_fst (l : List (Nat × Msg)) (j : Nat) :
    ((l.map (·.1)).contains j = true) ↔ ∃ p ∈ l, p.1 = j := by
  rw [show (l.map (·.1)).contains j = (l.map (·.1)).elem j from rfl]
  rw [List.elem_iff]
  constructor
  · intro h
    obtain ⟨p, hp, hpj⟩ := List.mem_map.mp h
    exact ⟨p, hp, hpj⟩
  · rintro ⟨p, hp, hpj⟩
    exact List.mem_map.mpr ⟨p, hp, hpj⟩

/-- Claim C4, amended: under the spec's filter-design assumption that each
message's body matches at most one filter substring, after the retention pass
on a folder at most one surviving message contains the filter substring, and
if at least one message matched the filter, some survivor matches it and has
the maximum `received_at` among all matches of that folder. -/
theorem c4_retention_filter (filters : List String) (msgs : List Msg) (F : String)
    (hsm : ∀ m' ∈ msgs, (filters.filter (fun f => msgMatches f m')).length ≤ 1)
    (hF : F ∈ filters) :
    ((retSurvivors filters msgs).filter (fun m => msgMatches F m)).length ≤ 1 ∧
    ((∃ mi ∈ msgs, msgMatches F mi = true) →
      ∃ mb, mb ∈ retSurvivors filters msgs ∧ msgMatches F mb = true ∧
        ∀ m' ∈ msgs, msgMatches F m' = true → tsLt mb.received m'.received = false) := by
  obtain ⟨hA, hC, hD, hE⟩ := retRun_inv filters msgs hsm
  have hdel : retDeletedIdx filters msgs = (retRun filters msgs).toDelete.map (·.1) := by
    unfold retDeletedIdx
    rw [List.filter_eq_self.mpr (fun p hp => (hA p hp).2.2)]
  constructor
  · rcases hbest : dictFind F (retRun filters msgs).best with _ | b
    · have hnil : (retSurvivors filters msgs).filter (fun m => msgMatches F m) = [] := by
        rw [List.filter_eq_nil_iff]
        intro mb hmb
        have hmem := removeMarked_subset (retDeletedIdx filters msgs) msgs 0 mb hmb
        have := hE F hF hbest mb hmem
        simp [this]
      rw [hnil]
      simp
    · unfold retSurvivors
      apply removeMarked_filter_le_one (retDeletedIdx filters msgs) _ b.1 msgs 0
      intro j m' hj hp
      rcases hD F hF j m' hj hp with ⟨b', hb', hj', _⟩ | ⟨p, hp', hpj⟩
      · right
        rw [hbest] at hb'
        have hbb : b' = b := Option.some.inj hb'.symm
        rw [hbb] at hj'
        omega
      · left
        rw [hdel, show (0 : Nat) + j = j from by omega]
        exact (contains_map_fst _ j).mpr ⟨p, hp', hpj⟩
  · rintro ⟨mi, hmi, hmim⟩
    rcases hbest : dictFind F (retRun filters msgs).best with _ | b
    · exact absurd (hE F hF hbest mi hmi) (by simp [hmim])
    · obtain ⟨_, h2, _, h4, h5, h6⟩ := hC F b hbest
      refine ⟨b.2, ?_, h4, ?_⟩
      · unfold retSurvivors
        apply removeMarked_mem (retDeletedIdx filters msgs) msgs 0 b.1 b.2 h2
        rw [show (0 : Nat) + b.1 = b.1 from by omega, hdel]
        by_contra hcon
        have hcon2 : ((retRun filters msgs).toDelete.map (·.1)).contains b.1 = true := by
          simpa using hcon
        obtain ⟨p, hp, hpj⟩ := (contains_map_fst _ b.1).mp hcon2
        exact h6 p hp hpj
      · intro m' hm' hmatch
        obtain ⟨j, hj⟩ := List.get?_of_mem hm'
        exact h5 j m' hj hmatch

def filtersW : List String := ["weekly report"]

def msgsW : List Msg :=
  [mkSample "x weekly report a" 1, mkSample "y WEEKLY REPORT b" 3, mkSample "weekly report" 2]

/-- Witness for `c4_retention_filter` at a concrete folder: three messages
match the single filter and only the newest survives. -/
theorem c4_retention_filter_witness :
    ((retSurvivors filtersW msgsW).filter (fun m => msgMatches "weekly report" m)).length ≤ 1 ∧
    ((∃ mi ∈ msgsW, msgMatches "weekly report" mi = true) →
      ∃ mb, mb ∈ retSurvivors filtersW msgsW ∧ msgMatches "weekly report" mb = true ∧
        ∀ m' ∈ msgsW, msgMatches "weekly report" m' = true →
          tsLt mb.received m'.received = false) :=
  c4_retention_filter filtersW msgsW "weekly report" (by decide) (by decide)

/-!  ## Detector invariants (claims C3 and C10) -/

/-- Number of messages of a list carrying a given identity key. -/
def keyCount (k : Key) (l : List Msg) : Nat :=
  l.countP (fun m => decide (m.key = k))

theorem keyCount_append (k : Key) (l1 l2 : List Msg) :
    keyCount k (l1 ++ l2) = keyCount k l1 + keyCount k l2 :=
  List.countP_append _ _ _

theorem keyCount_singleton (k : Key) (m : Msg) :
    keyCount k [m] = if m.key = k then 1 else 0 := by
  by_cases h : m.key = k <;> simp [keyCount, List.countP_cons, h]

theorem containsKey_insert_self {κ α : Type} [DecidableEq κ] (k : κ) (v : α)
    (l : List (κ × α)) : containsKey k (dictInsert k v l) = true := by
  simp [containsKey, dictFind_insert_self]

theorem containsKey_insert_mono {κ α : Type} [DecidableEq κ] (k k' : κ) (v : α)
    (l : List (κ × α)) (h : containsKey k l = true) :
    containsKey k (dictInsert k' v l) = true := by
  by_cases hkk : k = k'
  · subst hkk
    exact containsKey_insert_self k v l
  · unfold containsKey
    rw [dictFind_insert_ne k' k v hkk]
    exact h

/-- The invariant used for the second-run safety argument of claim C3:
nothing is marked, the diagonal `non_duplicates` entries of the starting
patterns persist, and `seen` keys have occurred in the processed prefix. -/
def AInv (pats0 : Patterns) (done : List Msg) (st : DetState) : Prop :=
  st.marked = [] ∧
  (∀ k : Key, containsKey (pairVal k k) pats0.nonDuplicates = true →
    containsKey (pairVal k k) st.patterns.nonDuplicates = true) ∧
  (∀ k : Key, (dictFind k st.seen).isSome = true → 1 ≤ keyCount k done) ∧
  (∀ k e, dictFind k st.seen = some e → e.key = k)

theorem detGo_safety (cfg : Config) (oracle : Nat → Bool) (fn : String) (pats0 : Patterns) :
    ∀ (rem done : List Msg) (st : DetState),
      (∀ k : Key, keyCount k (done ++ rem) ≤ 1 ∨
        containsKey (pairVal k k) pats0.nonDuplicates = true) →
      AInv pats0 done st →
      AInv pats0 (done ++ rem) (detGo cfg oracle fn st done.length rem) := by
  intro rem
  induction rem with
  | nil => intro done st _ hinv; simpa using hinv
  | cons m rest ih =>
      intro done st hglob hinv
      obtain ⟨h1, h2, h3, h4⟩ := hinv
      show AInv pats0 (done ++ m :: rest)
        (detGo cfg oracle fn (detStep cfg oracle fn st done.length m) (done.length + 1) rest)
      have hstep : AInv pats0 (done ++ [m]) (detStep cfg oracle fn st done.length m) := by
        unfold detStep
        dsimp only
        rcases hseen : dictFind m.key st.seen with _ | s
        · -- first occurrence of this key
          refine ⟨h1, h2, ?_, ?_⟩
          · intro k hk
            by_cases hkm : k = m.key
            · subst hkm
              rw [keyCount_append, keyCount_singleton]
              simp
            · rw [show dictFind k (dictInsert m.key
                  (mkSeenEntry fn m (normalize_body m.body) m.key) st.seen) =
                  dictFind k st.seen from dictFind_insert_ne m.key k _ hkm st.seen] at hk
              have := h3 k hk
              rw [keyCount_append]
              omega
          · intro k e hke
            by_cases hkm : k = m.key
            · subst hkm
              rw [dictFind_insert_self] at hke
              rw [← Option.some.inj hke]
              rfl
            · rw [dictFind_insert_ne m.key k _ hkm st.seen] at hke
              exact h4 k e hke
        · -- the key has been seen: the pair must be skipped
          dsimp only
          have hskey : s.key = m.key := h4 m.key s hseen
          have hcount : 1 ≤ keyCount m.key done := h3 m.key (by rw [hseen]; rfl)
          have hcount2 : 2 ≤ keyCount m.key (done ++ m :: rest) := by
            rw [keyCount_append]
            have : 1 ≤ keyCount m.key (m :: rest) := by
              rw [show m :: rest = [m] ++ rest from rfl, keyCount_append, keyCount_singleton]
              simp
            omega
          have hnd0 : containsKey (pairVal m.key m.key) pats0.nonDuplicates = true := by
            rcases hglob m.key with hle | hnd
            · omega
            · exact hnd
          have hnd : containsKey (pairVal m.key m.key) st.patterns.nonDuplicates = true :=
            h2 m.key hnd0
          have hclass : detClassify cfg oracle st m.key s (normalize_body m.body) =
              Ev.skipCompared ∨
              detClassify cfg oracle st m.key s (normalize_body m.body) = Ev.skipNonDup := by
            unfold detClassify
            by_cases hcmp : (m.key, s.key) ∈ st.compared ∨ (s.key, m.key) ∈ st.compared
            · rw [if_pos hcmp]
              exact Or.inl rfl
            · rw [if_neg hcmp, if_pos (by rw [hskey]; exact Or.inl hnd)]
              exact Or.inr rfl
          rcases hclass with hcl | hcl <;>
            · rw [hcl]
              refine ⟨h1, h2, ?_, h4⟩
              intro k hk
              have := h3 k hk
              rw [keyCount_append]
              omega
      have hih := ih (done ++ [m]) (detStep cfg oracle fn st done.length m)
        (by intro k; have := hglob k; simpa using this) hstep
      rw [show (done ++ [m]).length = done.length + 1 from by simp] at hih
      simpa using hih

theorem lt_length_of_get?_some {α : Type} {l : List α} {j : Nat} {a : α}
    (h : l.get? j = some a) : j < l.length := by
  by_contra hno
  rw [List.get?_eq_none.mpr (by omega)] at h
  cases h

/-- The invariant of a single detector scan used for claim C3: `seen` keys
are exactly the processed keys, `compared_pairs` entries witness at least two
processed occurrences, and any key occurring twice has either a diagonal
`non_duplicates` entry or a marked message. -/
def BInv (done : List Msg) (st : DetState) : Prop :=
  (∀ k e, dictFind k st.seen = some e → e.key = k) ∧
  (∀ k : Key, (dictFind k st.seen).isSome = true ↔ 1 ≤ keyCount k done) ∧
  (∀ k : Key, (k, k) ∈ st.compared → 2 ≤ keyCount k done) ∧
  (∀ k : Key, 2 ≤ keyCount k done →
    (containsKey (pairVal k k) st.patterns.nonDuplicates = true ∨
      ∃ p ∈ st.marked, p.2.key = k)) ∧
  (∀ p ∈ st.marked, done.get? p.1 = some p.2)

theorem BInv_mark (fn : String) (done : List Msg) (st : DetState) (m : Msg)
    (s : SeenEntry) (nbody : String) (evs : List Ev) (pr : Nat)
    (hinv : BInv done st) (hskey : s.key = m.key)
    (hcount : 1 ≤ keyCount m.key done) :
    BInv (done ++ [m])
      { seen := st.seen, marked := st.marked ++ [(done.length, m)],
        compared := (m.key, s.key) :: st.compared,
        patterns := { duplicates := dictInsert (keyVal m.key) nbody st.patterns.duplicates,
                      nonDuplicates := st.patterns.nonDuplicates },
        prompts := pr, events := evs } := by
  obtain ⟨h1, h2, h3, h4, h5⟩ := hinv
  refine ⟨h1, ?_, ?_, ?_, ?_⟩
  · intro k
    rw [keyCount_append, keyCount_singleton]
    constructor
    · intro h
      have := (h2 k).mp h
      omega
    · intro h
      apply (h2 k).mpr
      by_cases hkm : m.key = k
      · subst hkm
        exact hcount
      · rw [if_neg hkm] at h
        omega
  · intro k hk
    rw [keyCount_append, keyCount_singleton]
    rcases List.mem_cons.mp hk with h | h
    · have hk1 : k = m.key := congrArg Prod.fst h
      rw [hk1, if_pos rfl]
      omega
    · have := h3 k h
      omega
  · intro k hk
    rw [keyCount_append, keyCount_singleton] at hk
    by_cases hkm : m.key = k
    · subst hkm
      exact Or.inr ⟨(done.length, m), List.mem_append.mpr (Or.inr (List.mem_singleton.mpr rfl)), rfl⟩
    · rw [if_neg hkm] at hk
      rcases h4 k (by omega) with hnd | ⟨p, hp, hpk⟩
      · exact Or.inl hnd
      · exact Or.inr ⟨p, List.mem_append.mpr (Or.inl hp), hpk⟩
  · intro p hp
    rcases List.mem_append.mp hp with h | h
    · obtain hget := h5 p h
      rw [get?_snoc, if_pos (lt_length_of_get?_some hget)]
      exact hget
    · rw [List.mem_singleton.mp h]
      rw [get?_snoc, if_neg (by omega), if_pos rfl]

theorem BInv_replace (fn : String) (done : List Msg) (st : DetState) (m : Msg)
    (s : SeenEntry) (nbody : String) (evs : List Ev) (pr : Nat)
    (hinv : BInv done st) (hskey : s.key = m.key)
    (hcount : 1 ≤ keyCount m.key done) :
    BInv (done ++ [m])
      { seen := dictInsert m.key (mkSeenEntry fn m nbody m.key) st.seen,
        marked := st.marked,
        compared := (m.key, s.key) :: st.compared,
        patterns := { duplicates := st.patterns.duplicates,
                      nonDuplicates := dictInsert (pairVal m.key s.key) true
                        st.patterns.nonDuplicates },
        prompts := pr, events := evs } := by
  obtain ⟨h1, h2, h3, h4, h5⟩ := hinv
  refine ⟨?_, ?_, ?_, ?_, ?_⟩
  · intro k e hke
    by_cases hkm : k = m.key
    · subst hkm
      rw [dictFind_insert_self] at hke
      rw [← Option.some.inj hke]
      rfl
    · rw [dictFind_insert_ne m.key k _ hkm st.seen] at hke
      exact h1 k e hke
  · intro k
    rw [keyCount_append, keyCount_singleton]
    by_cases hkm : k = m.key
    · subst hkm
      rw [dictFind_insert_self, if_pos rfl]
      constructor
      · intro _
        omega
      · intro _
        rfl
    · rw [dictFind_insert_ne m.key k _ hkm st.seen]
      rw [if_neg (fun habs => hkm habs.symm)]
      constructor
      · intro h
        have := (h2 k).mp h
        omega
      · intro h
        exact (h2 k).mpr (by omega)
  · intro k hk
    rw [keyCount_append, keyCount_singleton]
    rcases List.mem_cons.mp hk with h | h
    · have hk1 : k = m.key := congrArg Prod.fst h
      rw [hk1, if_pos rfl]
      omega
    · have := h3 k h
      omega
  · intro k hk
    rw [keyCount_append, keyCount_singleton] at hk
    by_cases hkm : m.key = k
    · subst hkm
      left
      rw [show pairVal m.key s.key = pairVal m.key m.key from by rw [hskey]]
      exact containsKey_insert_self _ _ _
    · rw [if_neg hkm] at hk
      rcases h4 k (by omega) with hnd | hmk
      · exact Or.inl (containsKey_insert_mono _ _ _ _ hnd)
      · exact Or.inr hmk
  · intro p hp
    obtain hget := h5 p hp
    rw [get?_snoc, if_pos (lt_length_of_get?_some hget)]
    exact hget

theorem detGo_perkey (cfg : Config) (oracle : Nat → Bool) (fn : String) :
    ∀ (rem done : List Msg) (st : DetState),
      BInv done st →
      BInv (done ++ rem) (detGo cfg oracle fn st done.length rem) := by
  intro rem
  induction rem with
  | nil => intro done st hinv; simpa using hinv
  | cons m rest ih =>
      intro done st hinv
      show BInv (done ++ m :: rest)
        (detGo cfg oracle fn (detStep cfg oracle fn st done.length m) (done.length + 1) rest)
      have hstep : BInv (done ++ [m]) (detStep cfg oracle fn st done.length m) := by
        obtain ⟨h1, h2, h3, h4, h5⟩ := hinv
        unfold detStep
        dsimp only
        rcases hseen : dictFind m.key st.seen with _ | s
        · -- first occurrence
          have hzero : keyCount m.key done = 0 := by
            have := (h2 m.key)
            rw [hseen] at this
            simp at this
            omega
          refine ⟨?_, ?_, ?_, ?_, ?_⟩
          · intro k e hke
            by_cases hkm : k = m.key
            · subst hkm
              rw [dictFind_insert_self] at hke
              rw [← Option.some.inj hke]
              rfl
            · rw [dictFind_insert_ne m.key k _ hkm st.seen] at hke
              exact h1 k e hke
          · intro k
            rw [keyCount_append, keyCount_singleton]
            by_cases hkm : k = m.key
            · subst hkm
              rw [dictFind_insert_self, if_pos rfl]
              constructor
              · intro _
                omega
              · intro _
                rfl
            · rw [dictFind_insert_ne m.key k _ hkm st.seen]
              rw [if_neg (fun habs => hkm habs.symm)]
              constructor
              · intro h
                have := (h2 k).mp h
                omega
              · intro h
                exact (h2 k).mpr (by omega)
          · intro k hk
            rw [keyCount_append, keyCount_singleton]
            have := h3 k hk
            split <;> omega
          · intro k hk
            rw [keyCount_append, keyCount_singleton] at hk
            by_cases hkm : m.key = k
            · subst hkm
              rw [if_pos rfl] at hk
              omega
            · rw [if_neg hkm] at hk
              exact h4 k (by omega)
          · intro p hp
            obtain hget := h5 p hp
            rw [get?_snoc, if_pos (lt_length_of_get?_some hget)]
            exact hget
        · -- already seen
          dsimp only
          have hskey : s.key = m.key := h1 m.key s hseen
          have hcount : 1 ≤ keyCount m.key done :=
            (h2 m.key).mp (by rw [hseen]; rfl)
          unfold detClassify
          by_cases hcmp : (m.key, s.key) ∈ st.compared ∨ (s.key, m.key) ∈ st.compared
          · rw [if_pos hcmp]
            show BInv (done ++ [m]) { st with events := st.events ++ [Ev.skipCompared] }
            refine ⟨h1, ?_, ?_, ?_, ?_⟩
            · intro k
              rw [keyCount_append, keyCount_singleton]
              constructor
              · intro h
                have := (h2 k).mp h
                omega
              · intro h
                apply (h2 k).mpr
                by_cases hkm : m.key = k
                · subst hkm; omega
                · rw [if_neg hkm] at h; omega
            · intro k hk
              rw [keyCount_append, keyCount_singleton]
              have := h3 k hk
              split <;> omega
            · intro k hk
              rw [keyCount_append, keyCount_singleton] at hk
              by_cases hkm : m.key = k
              · subst hkm
                have hkk : (m.key, m.key) ∈ st.compared := by
                  rcases hcmp with h | h
                  · rwa [hskey] at h
                  · rwa [hskey] at h
                exact h4 m.key (h3 m.key hkk)
              · rw [if_neg hkm] at hk
                exact h4 k (by omega)
            · intro p hp
              obtain hget := h5 p hp
              rw [get?_snoc, if_pos (lt_length_of_get?_some hget)]
              exact hget
          · rw [if_neg hcmp]
            by_cases hndc : containsKey (pairVal m.key s.key) st.patterns.nonDuplicates = true ∨
                containsKey (pairVal s.key m.key) st.patterns.nonDuplicates = true
            · rw [if_pos hndc]
              show BInv (done ++ [m]) { st with events := st.events ++ [Ev.skipNonDup] }
              refine ⟨h1, ?_, ?_, ?_, ?_⟩
              · intro k
                rw [keyCount_append, keyCount_singleton]
                constructor
                · intro h
                  have := (h2 k).mp h
                  omega
                · intro h
                  apply (h2 k).mpr
                  by_cases hkm : m.key = k
                  · subst hkm; omega
                  · rw [if_neg hkm] at h; omega
              · intro k hk
                rw [keyCount_append, keyCount_singleton]
                have := h3 k hk
                split <;> omega
              · intro k hk
                rw [keyCount_append, keyCount_singleton] at hk
                by_cases hkm : m.key = k
                · subst hkm
                  left
                  rcases hndc with h | h
                  · rwa [hskey] at h
                  · rwa [hskey] at h
                · rw [if_neg hkm] at hk
                  exact h4 k (by omega)
              · intro p hp
                obtain hget := h5 p hp
                rw [get?_snoc, if_pos (lt_length_of_get?_some hget)]
                exact hget
            · -- comparison: one of the five comparing events
              rw [if_neg hndc]
              by_cases hfeq : Frac.feq (ratioF s.body.data (normalize_body m.body).data) fone = true
              · rw [if_pos hfeq]
                exact BInv_mark fn done st m s (normalize_body m.body) _ _
                  ⟨h1, h2, h3, h4, h5⟩ hskey hcount
              · rw [if_neg hfeq]
                by_cases hband : Frac.fle cfg.bodyThreshold
                    (ratioF s.body.data (normalize_body m.body).data) = true ∧
                    Frac.flt (ratioF s.body.data (normalize_body m.body).data) fone = true
                · rw [if_pos hband]
                  by_cases hhead : (are_bodies_similar ⟨s.body.data.take 300⟩
                      ⟨(normalize_body m.body).data.take 300⟩ cfg.first300Threshold).1 = true
                  · rw [if_pos hhead]
                    by_cases horc : oracle st.prompts = true
                    · rw [if_pos horc]
                      exact BInv_mark fn done st m s (normalize_body m.body) _ _
                        ⟨h1, h2, h3, h4, h5⟩ hskey hcount
                    · rw [if_neg horc]
                      exact BInv_replace fn done st m s (normalize_body m.body) _ _
                        ⟨h1, h2, h3, h4, h5⟩ hskey hcount
                  · rw [if_neg hhead]
                    exact BInv_replace fn done st m s (normalize_body m.body) _ _
                      ⟨h1, h2, h3, h4, h5⟩ hskey hcount
                · rw [if_neg hband]
                  exact BInv_replace fn done st m s (normalize_body m.body) _ _
                    ⟨h1, h2, h3, h4, h5⟩ hskey hcount
      have hih := ih (done ++ [m]) (detStep cfg oracle fn st done.length m) hstep
      rw [show (done ++ [m]).length = done.length + 1 from by simp] at hih
      simpa using hih

theorem detRun_perkey (cfg : Config) (oracle : Nat → Bool) (fn : String)
    (pr : Nat) (pats : Patterns) (msgs : List Msg) :
    BInv msgs (detRun cfg oracle fn pr pats msgs) := by
  have hinit : BInv []
      { seen := [], marked := [], compared := [], patterns := pats,
        prompts := pr, events := [] } := by
    refine ⟨?_, ?_, ?_, ?_, ?_⟩
    · intro k e h; simp [dictFind] at h
    · intro k; simp [dictFind, keyCount]
    · intro k h; simp at h
    · intro k h; simp [keyCount] at h
    · intro p hp; simp at hp
  have := detGo_perkey cfg oracle fn msgs [] _ hinit
  simpa using this

theorem keyCount_le_length (k : Key) (l : List Msg) : keyCount k l ≤ l.length :=
  List.countP_le_length _

theorem removeMarked_countP_le (del : List Nat) (P : Msg → Bool) :
    ∀ (msgs : List Msg) (i0 : Nat),
      (removeMarked del i0 msgs).countP P ≤ msgs.countP P := by
  intro msgs
  induction msgs with
  | nil => intro i0; simp [removeMarked]
  | cons m rest ih =>
      intro i0
      unfold removeMarked
      by_cases h : del.contains i0 = true
      · rw [if_pos h]
        have := ih (i0 + 1)
        rw [List.countP_cons]
        split <;> omega
      · rw [if_neg h]
        rw [List.countP_cons, List.countP_cons]
        have := ih (i0 + 1)
        split <;> omega

theorem removeMarked_countP_lt (del : List Nat) (P : Msg → Bool) :
    ∀ (msgs : List Msg) (i0 j : Nat) (m' : Msg),
      msgs.get? j = some m' → del.contains (i0 + j) = true → P m' = true →
      (removeMarked del i0 msgs).countP P < msgs.countP P := by
  intro msgs
  induction msgs with
  | nil => intro i0 j m' hj; cases j <;> cases hj
  | cons m rest ih =>
      intro i0 j m' hj hdel hP
      unfold removeMarked
      cases j with
      | zero =>
          have hm : m = m' := Option.some.inj hj
          rw [if_pos (by simpa using hdel)]
          have hle := removeMarked_countP_le del P rest (i0 + 1)
          have hc : (m :: rest).countP P = rest.countP P + 1 := by
            rw [hm]
            simp [List.countP_cons, hP]
          rw [hc]
          omega
      | succ j' =>
          have hj' : rest.get? j' = some m' := by simpa using hj
          have hdel' : del.contains (i0 + 1 + j') = true := by
            rwa [show i0 + 1 + j' = i0 + (j' + 1) from by omega]
          have hlt := ih (i0 + 1) j' m' hj' hdel' hP
          by_cases h : del.contains i0 = true
          · rw [if_pos h]
            rw [List.countP_cons]
            split <;> omega
          · rw [if_neg h]
            rw [List.countP_cons, List.countP_cons]
            split <;> omega

/-- C3 (amended).  If every identity key occurs in at most two messages of
the folder, then a second detector run on the survivors of a first run,
starting from the patterns the first run learned, marks no message: the
first run either marked one of the two same-key messages or recorded a
diagonal non_duplicates entry, and either fact silences the second run.
(The original claim, for arbitrary folders, is refuted by
three same-key messages, where compared_pairs makes the first run skip the
third message unexamined.) -/
theorem c3_detector_twice (cfg : Config) (o1 o2 : Nat → Bool) (fn : String)
    (pr1 pr2 : Nat) (pats0 : Patterns) (msgs : List Msg)
    (hsm : ∀ k : Key, keyCount k msgs ≤ 2) :
    (detRun cfg o2 fn pr2 (detRun cfg o1 fn pr1 pats0 msgs).patterns
      (detSurvivors cfg o1 fn pr1 pats0 msgs)).marked = [] := by
  have hb := detRun_perkey cfg o1 fn pr1 pats0 msgs
  obtain ⟨hb1, hb2, hb3, hb4, hb5⟩ := hb
  have hglob : ∀ k : Key,
      keyCount k (detSurvivors cfg o1 fn pr1 pats0 msgs) ≤ 1 ∨
      containsKey (pairVal k k)
        (detRun cfg o1 fn pr1 pats0 msgs).patterns.nonDuplicates = true := by
    intro k
    by_cases h2c : 2 ≤ keyCount k msgs
    · rcases hb4 k h2c with hnd | ⟨p, hp, hpk⟩
      · exact Or.inr hnd
      · left
        have hget := hb5 p hp
        have hdel : ((detRun cfg o1 fn pr1 pats0 msgs).marked.map (·.1)).contains
            (0 + p.1) = true := by
          rw [Nat.zero_add]
          exact (contains_map_fst _ _).mpr ⟨p, hp, rfl⟩
        have hlt := removeMarked_countP_lt
          ((detRun cfg o1 fn pr1 pats0 msgs).marked.map (·.1))
          (fun m => decide (m.key = k)) msgs 0 p.1 p.2 hget hdel (by simp [hpk])
        have hlt2 : keyCount k (detSurvivors cfg o1 fn pr1 pats0 msgs) <
            keyCount k msgs := by
          unfold keyCount detSurvivors
          exact hlt
        have hcm := hsm k
        omega
    · left
      have hle : keyCount k (detSurvivors cfg o1 fn pr1 pats0 msgs) ≤
          keyCount k msgs := by
        unfold keyCount detSurvivors
        exact removeMarked_countP_le
          ((detRun cfg o1 fn pr1 pats0 msgs).marked.map (·.1))
          (fun m => decide (m.key = k)) msgs 0
      omega
  have hinit : AInv (detRun cfg o1 fn pr1 pats0 msgs).patterns []
      { seen := [], marked := [], compared := [],
        patterns := (detRun cfg o1 fn pr1 pats0 msgs).patterns,
        prompts := pr2, events := [] } := by
    refine ⟨rfl, fun k h => h, ?_, ?_⟩
    · intro k h; simp [dictFind] at h
    · intro k e h; simp [dictFind] at h
  have hsafe := detGo_safety cfg o2 fn (detRun cfg o1 fn pr1 pats0 msgs).patterns
    (detSurvivors cfg o1 fn pr1 pats0 msgs) [] _
    (by intro k; simpa using hglob k) hinit
  exact hsafe.1

theorem c3_detector_twice_witness :
    (detRun cfgMain oracleYes "Inbox" 0
      (detRun cfgMain oracleNo "Inbox" 0 samplePatterns msgPairA).patterns
      (detSurvivors cfgMain oracleNo "Inbox" 0 samplePatterns msgPairA)).marked = [] :=
  c3_detector_twice cfgMain oracleNo oracleYes "Inbox" 0 0 samplePatterns msgPairA
    (fun k => le_trans (keyCount_le_length k msgPairA) (by decide))


/-!  ## The diagonal-pair invariant of one scan (claim C10) -/

/-- Number of messages of key `k` whose event invoked the matcher. -/
def cmpCount (k : Key) (l : List (Msg × Ev)) : Nat :=
  l.countP (fun p => decide (p.1.key = k) && Ev.isCompare p.2)

theorem cmpCount_append (k : Key) (l1 l2 : List (Msg × Ev)) :
    cmpCount k (l1 ++ l2) = cmpCount k l1 + cmpCount k l2 :=
  List.countP_append _ _ _

theorem cmpCount_singleton_skip (k : Key) (m : Msg) (e : Ev)
    (h : Ev.isCompare e = false) : cmpCount k [(m, e)] = 0 := by
  simp [cmpCount, List.countP_cons, h]

theorem cmpCount_singleton_cmp_self (m : Msg) (e : Ev)
    (h : Ev.isCompare e = true) : cmpCount m.key [(m, e)] = 1 := by
  simp [cmpCount, List.countP_cons, h]

theorem cmpCount_singleton_cmp_ne (k : Key) (m : Msg) (e : Ev)
    (h : m.key ≠ k) : cmpCount k [(m, e)] = 0 := by
  simp [cmpCount, List.countP_cons, h]

theorem zip_snoc {α β : Type} (l1 : List α) (l2 : List β) (a : α) (b : β)
    (h : l1.length = l2.length) :
    (l1 ++ [a]).zip (l2 ++ [b]) = l1.zip l2 ++ [(a, b)] := by
  rw [List.zip_append h]
  rfl

theorem take_snoc_of_le {α : Type} (l : List α) (a : α) (i : Nat)
    (h : i ≤ l.length) : (l ++ [a]).take i = l.take i :=
  List.take_append_of_le_length h

theorem containsKey_insert_elim {κ α : Type} [DecidableEq κ] (q k : κ) (v : α)
    (l : List (κ × α)) (h : containsKey q (dictInsert k v l) = true) :
    q = k ∨ containsKey q l = true := by
  by_cases hqk : q = k
  · exact Or.inl hqk
  · right
    unfold containsKey at h ⊢
    rwa [dictFind_insert_ne k q v hqk l] at h

/-- The single-scan invariant of claim C10, relative to the starting
patterns `pats0`: `seen` keys match their entries and are exactly the keys
of the processed prefix; one event is recorded per processed message; all
`compared_pairs` entries are diagonal; all `non_duplicates` additions are
diagonal; the matcher ran at most once per key, and only after it ran does
`(k, k)` sit in `compared_pairs`; a key processed twice is silenced (in
`compared_pairs` or diagonally in `non_duplicates`); marked positions lie in
the prefix; and every third-or-later occurrence of a key was skipped and not
marked. -/
def DInv (pats0 : Patterns) (done : List Msg) (st : DetState) : Prop :=
  (∀ k e, dictFind k st.seen = some e → e.key = k) ∧
  (∀ k : Key, (dictFind k st.seen).isSome = true ↔ 1 ≤ keyCount k done) ∧
  st.events.length = done.length ∧
  (∀ q ∈ st.compared, q.1 = q.2) ∧
  (∀ q : PyVal, containsKey q st.patterns.nonDuplicates = true →
    containsKey q pats0.nonDuplicates = true ∨ ∃ k : Key, q = pairVal k k) ∧
  (∀ k : Key, cmpCount k (done.zip st.events) ≤ 1) ∧
  (∀ k : Key, 1 ≤ cmpCount k (done.zip st.events) → (k, k) ∈ st.compared) ∧
  (∀ k : Key, 2 ≤ keyCount k done →
    (k, k) ∈ st.compared ∨
      containsKey (pairVal k k) st.patterns.nonDuplicates = true) ∧
  (∀ p ∈ st.marked, p.1 < done.length) ∧
  (∀ i m, done.get? i = some m → 2 ≤ keyCount m.key (done.take i) →
    (∃ e, st.events.get? i = some e ∧ Ev.isSkip e = true) ∧
      ∀ p ∈ st.marked, p.1 ≠ i)

theorem DInv_skip (pats0 : Patterns) (done : List Msg) (st : DetState)
    (m : Msg) (e : Ev) (hinv : DInv pats0 done st)
    (hskip : Ev.isSkip e = true) (hcmpe : Ev.isCompare e = false)
    (hcount1 : 1 ≤ keyCount m.key done)
    (hsec : (m.key, m.key) ∈ st.compared ∨
      containsKey (pairVal m.key m.key) st.patterns.nonDuplicates = true) :
    DInv pats0 (done ++ [m]) { st with events := st.events ++ [e] } := by
  obtain ⟨d1, d2, d3, d4, d5, d6, d7, d8, d9, d10⟩ := hinv
  refine ⟨d1, ?_, ?_, d4, d5, ?_, ?_, ?_, ?_, ?_⟩
  · intro k
    rw [keyCount_append, keyCount_singleton]
    constructor
    · intro h
      have := (d2 k).mp h
      split <;> omega
    · intro h
      apply (d2 k).mpr
      by_cases hkm : m.key = k
      · subst hkm
        exact hcount1
      · rw [if_neg hkm] at h
        omega
  · simp [d3]
  · intro k
    rw [zip_snoc done st.events m e d3.symm, cmpCount_append,
        cmpCount_singleton_skip k m e hcmpe]
    have := d6 k
    omega
  · intro k hk
    rw [zip_snoc done st.events m e d3.symm, cmpCount_append,
        cmpCount_singleton_skip k m e hcmpe] at hk
    exact d7 k (by omega)
  · intro k hk2
    rw [keyCount_append, keyCount_singleton] at hk2
    by_cases hkm : m.key = k
    · subst hkm
      by_cases h2 : 2 ≤ keyCount m.key done
      · exact d8 m.key h2
      · exact hsec
    · rw [if_neg hkm] at hk2
      exact d8 k (by omega)
  · intro p hp
    have := d9 p hp
    simp only [List.length_append, List.length_cons, List.length_nil]
    omega
  · intro i m' hi hcnt
    rw [get?_snoc] at hi
    by_cases hilt : i < done.length
    · rw [if_pos hilt] at hi
      rw [take_snoc_of_le done m i (by omega)] at hcnt
      obtain ⟨⟨e', he', hsk'⟩, hmk⟩ := d10 i m' hi hcnt
      refine ⟨⟨e', ?_, hsk'⟩, hmk⟩
      rw [get?_snoc, if_pos (lt_length_of_get?_some he')]
      exact he'
    · rw [if_neg hilt] at hi
      by_cases hieq : i = done.length
      · rw [if_pos hieq] at hi
        refine ⟨⟨e, ?_, hskip⟩, ?_⟩
        · rw [hieq, ← d3, List.get?_concat_length]
        · intro p hp
          have := d9 p hp
          omega
      · rw [if_neg hieq] at hi
        simp at hi

theorem DInv_mark (pats0 : Patterns) (done : List Msg) (st : DetState)
    (m : Msg) (s : SeenEntry) (nbody : String) (e : Ev) (pr : Nat)
    (hinv : DInv pats0 done st) (hskey : s.key = m.key)
    (hcmpe : Ev.isCompare e = true)
    (hcount1 : 1 ≤ keyCount m.key done)
    (hncmp : (m.key, m.key) ∉ st.compared)
    (hnnd : ¬ containsKey (pairVal m.key m.key) st.patterns.nonDuplicates = true) :
    DInv pats0 (done ++ [m])
      { seen := st.seen, marked := st.marked ++ [(done.length, m)],
        compared := (m.key, s.key) :: st.compared,
        patterns := { duplicates := dictInsert (keyVal m.key) nbody st.patterns.duplicates,
                      nonDuplicates := st.patterns.nonDuplicates },
        prompts := pr, events := st.events ++ [e] } := by
  obtain ⟨d1, d2, d3, d4, d5, d6, d7, d8, d9, d10⟩ := hinv
  have hno2 : ¬ 2 ≤ keyCount m.key done := by
    intro h2
    rcases d8 m.key h2 with h | h
    · exact hncmp h
    · exact hnnd h
  refine ⟨d1, ?_, ?_, ?_, d5, ?_, ?_, ?_, ?_, ?_⟩
  · intro k
    rw [keyCount_append, keyCount_singleton]
    constructor
    · intro h
      have := (d2 k).mp h
      split <;> omega
    · intro h
      apply (d2 k).mpr
      by_cases hkm : m.key = k
      · subst hkm
        exact hcount1
      · rw [if_neg hkm] at h
        omega
  · simp [d3]
  · intro q hq
    rcases List.mem_cons.mp hq with h | h
    · rw [h]
      exact hskey.symm
    · exact d4 q h
  · intro k
    rw [zip_snoc done st.events m e d3.symm, cmpCount_append]
    by_cases hkm : m.key = k
    · subst hkm
      rw [cmpCount_singleton_cmp_self m e hcmpe]
      have h0 : cmpCount m.key (done.zip st.events) = 0 := by
        by_contra hne
        exact hncmp (d7 m.key (by omega))
      omega
    · rw [cmpCount_singleton_cmp_ne k m e hkm]
      have := d6 k
      omega
  · intro k hk
    rw [zip_snoc done st.events m e d3.symm, cmpCount_append] at hk
    by_cases hkm : m.key = k
    · subst hkm
      exact List.mem_cons.mpr (Or.inl (by rw [hskey]))
    · rw [cmpCount_singleton_cmp_ne k m e hkm] at hk
      exact List.mem_cons.mpr (Or.inr (d7 k (by omega)))
  · intro k hk2
    rw [keyCount_append, keyCount_singleton] at hk2
    by_cases hkm : m.key = k
    · subst hkm
      left
      exact List.mem_cons.mpr (Or.inl (by rw [hskey]))
    · rw [if_neg hkm] at hk2
      rcases d8 k (by omega) with h | h
      · exact Or.inl (List.mem_cons.mpr (Or.inr h))
      · exact Or.inr h
  · intro p hp
    rcases List.mem_append.mp hp with h | h
    · have := d9 p h
      simp only [List.length_append, List.length_cons, List.length_nil]
      omega
    · have hpe : p = (done.length, m) := by simpa using h
      rw [hpe]
      simp only [List.length_append, List.length_cons, List.length_nil]
      omega
  · intro i m' hi hcnt
    rw [get?_snoc] at hi
    by_cases hilt : i < done.length
    · rw [if_pos hilt] at hi
      rw [take_snoc_of_le done m i (by omega)] at hcnt
      obtain ⟨⟨e', he', hsk'⟩, hmk⟩ := d10 i m' hi hcnt
      refine ⟨⟨e', ?_, hsk'⟩, ?_⟩
      · rw [get?_snoc, if_pos (lt_length_of_get?_some he')]
        exact he'
      · intro p hp
        rcases List.mem_append.mp hp with h | h
        · exact hmk p h
        · have hpe : p = (done.length, m) := by simpa using h
          rw [hpe]
          show done.length ≠ i
          omega
    · rw [if_neg hilt] at hi
      by_cases hieq : i = done.length
      · rw [if_pos hieq] at hi
        have hm : m' = m := (Option.some.inj hi).symm
        rw [hm] at hcnt
        rw [hieq, take_snoc_of_le done m done.length (le_refl _),
            List.take_length] at hcnt
        exact absurd hcnt hno2
      · rw [if_neg hieq] at hi
        simp at hi

theorem DInv_replace (pats0 : Patterns) (fn : String) (done : List Msg)
    (st : DetState) (m : Msg) (s : SeenEntry) (nbody : String) (e : Ev)
    (pr : Nat) (hinv : DInv pats0 done st) (hskey : s.key = m.key)
    (hcmpe : Ev.isCompare e = true)
    (hcount1 : 1 ≤ keyCount m.key done)
    (hncmp : (m.key, m.key) ∉ st.compared)
    (hnnd : ¬ containsKey (pairVal m.key m.key) st.patterns.nonDuplicates = true) :
    DInv pats0 (done ++ [m])
      { seen := dictInsert m.key (mkSeenEntry fn m nbody m.key) st.seen,
        marked := st.marked,
        compared := (m.key, s.key) :: st.compared,
        patterns := { duplicates := st.patterns.duplicates,
                      nonDuplicates := dictInsert (pairVal m.key s.key) true
                        st.patterns.nonDuplicates },
        prompts := pr, events := st.events ++ [e] } := by
  obtain ⟨d1, d2, d3, d4, d5, d6, d7, d8, d9, d10⟩ := hinv
  have hno2 : ¬ 2 ≤ keyCount m.key done := by
    intro h2
    rcases d8 m.key h2 with h | h
    · exact hncmp h
    · exact hnnd h
  refine ⟨?_, ?_, ?_, ?_, ?_, ?_, ?_, ?_, ?_, ?_⟩
  · intro k e' hke'
    by_cases hkm : k = m.key
    · subst hkm
      rw [dictFind_insert_self] at hke'
      rw [← Option.some.inj hke']
      rfl
    · rw [dictFind_insert_ne m.key k _ hkm st.seen] at hke'
      exact d1 k e' hke'
  · intro k
    rw [keyCount_append, keyCount_singleton]
    by_cases hkm : k = m.key
    · subst hkm
      rw [dictFind_insert_self, if_pos rfl]
      constructor
      · intro _
        omega
      · intro _
        rfl
    · rw [dictFind_insert_ne m.key k _ hkm st.seen,
          if_neg (fun habs => hkm habs.symm), Nat.add_zero]
      exact d2 k
  · simp [d3]
  · intro q hq
    rcases List.mem_cons.mp hq with h | h
    · rw [h]
      exact hskey.symm
    · exact d4 q h
  · intro q hq
    rcases containsKey_insert_elim q (pairVal m.key s.key) true
        st.patterns.nonDuplicates hq with h | h
    · right
      exact ⟨m.key, by rw [h, hskey]⟩
    · exact d5 q h
  · intro k
    rw [zip_snoc done st.events m e d3.symm, cmpCount_append]
    by_cases hkm : m.key = k
    · subst hkm
      rw [cmpCount_singleton_cmp_self m e hcmpe]
      have h0 : cmpCount m.key (done.zip st.events) = 0 := by
        by_contra hne
        exact hncmp (d7 m.key (by omega))
      omega
    · rw [cmpCount_singleton_cmp_ne k m e hkm]
      have := d6 k
      omega
  · intro k hk
    rw [zip_snoc done st.events m e d3.symm, cmpCount_append] at hk
    by_cases hkm : m.key = k
    · subst hkm
      exact List.mem_cons.mpr (Or.inl (by rw [hskey]))
    · rw [cmpCount_singleton_cmp_ne k m e hkm] at hk
      exact List.mem_cons.mpr (Or.inr (d7 k (by omega)))
  · intro k hk2
    rw [keyCount_append, keyCount_singleton] at hk2
    by_cases hkm : m.key = k
    · subst hkm
      right
      rw [show pairVal m.key m.key = pairVal m.key s.key from by rw [hskey]]
      exact containsKey_insert_self _ _ _
    · rw [if_neg hkm] at hk2
      rcases d8 k (by omega) with h | h
      · exact Or.inl (List.mem_cons.mpr (Or.inr h))
      · exact Or.inr (containsKey_insert_mono _ _ _ _ h)
  · intro p hp
    have := d9 p hp
    simp only [List.length_append, List.length_cons, List.length_nil]
    omega
  · intro i m' hi hcnt
    rw [get?_snoc] at hi
    by_cases hilt : i < done.length
    · rw [if_pos hilt] at hi
      rw [take_snoc_of_le done m i (by omega)] at hcnt
      obtain ⟨⟨e', he', hsk'⟩, hmk⟩ := d10 i m' hi hcnt
      refine ⟨⟨e', ?_, hsk'⟩, hmk⟩
      rw [get?_snoc, if_pos (lt_length_of_get?_some he')]
      exact he'
    · rw [if_neg hilt] at hi
      by_cases hieq : i = done.length
      · rw [if_pos hieq] at hi
        have hm : m' = m := (Option.some.inj hi).symm
        rw [hm] at hcnt
        rw [hieq, take_snoc_of_le done m done.length (le_refl _),
            List.take_length] at hcnt
        exact absurd hcnt hno2
      · rw [if_neg hieq] at hi
        simp at hi

theorem detGo_dinv (cfg : Config) (oracle : Nat → Bool) (fn : String)
    (pats0 : Patterns) :
    ∀ (rem done : List Msg) (st : DetState),
      DInv pats0 done st →
      DInv pats0 (done ++ rem) (detGo cfg oracle fn st done.length rem) := by
  intro rem
  induction rem with
  | nil => intro done st hinv; simpa using hinv
  | cons m rest ih =>
      intro done st hinv
      show DInv pats0 (done ++ m :: rest)
        (detGo cfg oracle fn (detStep cfg oracle fn st done.length m) (done.length + 1) rest)
      have hstep : DInv pats0 (done ++ [m]) (detStep cfg oracle fn st done.length m) := by
        unfold detStep
        dsimp only
        rcases hseen : dictFind m.key st.seen with _ | s
        · -- first occurrence of this key
          obtain ⟨d1, d2, d3, d4, d5, d6, d7, d8, d9, d10⟩ := hinv
          have hzero : keyCount m.key done = 0 := by
            have h := d2 m.key
            rw [hseen] at h
            simp at h
            omega
          refine ⟨?_, ?_, ?_, d4, d5, ?_, ?_, ?_, ?_, ?_⟩
          · intro k e' hke'
            by_cases hkm : k = m.key
            · subst hkm
              rw [dictFind_insert_self] at hke'
              rw [← Option.some.inj hke']
              rfl
            · rw [dictFind_insert_ne m.key k _ hkm st.seen] at hke'
              exact d1 k e' hke'
          · intro k
            rw [keyCount_append, keyCount_singleton]
            by_cases hkm : k = m.key
            · subst hkm
              rw [dictFind_insert_self, if_pos rfl]
              constructor
              · intro _
                omega
              · intro _
                rfl
            · rw [dictFind_insert_ne m.key k _ hkm st.seen,
                  if_neg (fun habs => hkm habs.symm), Nat.add_zero]
              exact d2 k
          · simp [d3]
          · intro k
            rw [zip_snoc done st.events m Ev.first d3.symm, cmpCount_append,
                cmpCount_singleton_skip k m Ev.first rfl]
            have := d6 k
            omega
          · intro k hk
            rw [zip_snoc done st.events m Ev.first d3.symm, cmpCount_append,
                cmpCount_singleton_skip k m Ev.first rfl] at hk
            exact d7 k (by omega)
          · intro k hk2
            rw [keyCount_append, keyCount_singleton] at hk2
            by_cases hkm : m.key = k
            · exfalso
              rw [if_pos hkm] at hk2
              rw [← hkm] at hk2
              omega
            · rw [if_neg hkm] at hk2
              exact d8 k (by omega)
          · intro p hp
            have := d9 p hp
            simp only [List.length_append, List.length_cons, List.length_nil]
            omega
          · intro i m' hi hcnt
            rw [get?_snoc] at hi
            by_cases hilt : i < done.length
            · rw [if_pos hilt] at hi
              rw [take_snoc_of_le done m i (by omega)] at hcnt
              obtain ⟨⟨e', he', hsk'⟩, hmk⟩ := d10 i m' hi hcnt
              refine ⟨⟨e', ?_, hsk'⟩, hmk⟩
              rw [get?_snoc, if_pos (lt_length_of_get?_some he')]
              exact he'
            · rw [if_neg hilt] at hi
              by_cases hieq : i = done.length
              · rw [if_pos hieq] at hi
                have hm : m' = m := (Option.some.inj hi).symm
                rw [hm] at hcnt
                rw [hieq, take_snoc_of_le done m done.length (le_refl _),
                    List.take_length] at hcnt
                exfalso
                omega
              · rw [if_neg hieq] at hi
                simp at hi
        · -- already seen
          dsimp only
          have hskey : s.key = m.key := hinv.1 m.key s hseen
          have hcount1 : 1 ≤ keyCount m.key done :=
            (hinv.2.1 m.key).mp (by rw [hseen]; rfl)
          unfold detClassify
          by_cases hcmp : (m.key, s.key) ∈ st.compared ∨ (s.key, m.key) ∈ st.compared
          · rw [if_pos hcmp]
            show DInv pats0 (done ++ [m]) { st with events := st.events ++ [Ev.skipCompared] }
            apply DInv_skip pats0 done st m Ev.skipCompared hinv rfl rfl hcount1
            left
            rcases hcmp with h | h
            · rwa [hskey] at h
            · rwa [hskey] at h
          · rw [if_neg hcmp]
            have hncmp : (m.key, m.key) ∉ st.compared := by
              intro habs
              exact hcmp (Or.inl (by rwa [hskey]))
            by_cases hndc : containsKey (pairVal m.key s.key) st.patterns.nonDuplicates = true ∨
                containsKey (pairVal s.key m.key) st.patterns.nonDuplicates = true
            · rw [if_pos hndc]
              show DInv pats0 (done ++ [m]) { st with events := st.events ++ [Ev.skipNonDup] }
              apply DInv_skip pats0 done st m Ev.skipNonDup hinv rfl rfl hcount1
              right
              rcases hndc with h | h
              · rwa [hskey] at h
              · rwa [hskey] at h
            · rw [if_neg hndc]
              have hnnd : ¬ containsKey (pairVal m.key m.key) st.patterns.nonDuplicates = true := by
                intro habs
                exact hndc (Or.inl (by rwa [hskey]))
              by_cases hfeq : Frac.feq (ratioF s.body.data (normalize_body m.body).data) fone = true
              · rw [if_pos hfeq]
                exact DInv_mark pats0 done st m s (normalize_body m.body) Ev.dup _
                  hinv hskey rfl hcount1 hncmp hnnd
              · rw [if_neg hfeq]
                by_cases hband : Frac.fle cfg.bodyThreshold
                    (ratioF s.body.data (normalize_body m.body).data) = true ∧
                    Frac.flt (ratioF s.body.data (normalize_body m.body).data) fone = true
                · rw [if_pos hband]
                  by_cases hhead : (are_bodies_similar ⟨s.body.data.take 300⟩
                      ⟨(normalize_body m.body).data.take 300⟩ cfg.first300Threshold).1 = true
                  · rw [if_pos hhead]
                    by_cases horc : oracle st.prompts = true
                    · rw [if_pos horc]
                      exact DInv_mark pats0 done st m s (normalize_body m.body) Ev.promptYes _
                        hinv hskey rfl hcount1 hncmp hnnd
                    · rw [if_neg horc]
                      exact DInv_replace pats0 fn done st m s (normalize_body m.body)
                        Ev.promptNo _ hinv hskey rfl hcount1 hncmp hnnd
                  · rw [if_neg hhead]
                    exact DInv_replace pats0 fn done st m s (normalize_body m.body)
                      Ev.headFail _ hinv hskey rfl hcount1 hncmp hnnd
                · rw [if_neg hband]
                  exact DInv_replace pats0 fn done st m s (normalize_body m.body)
                    Ev.lowRatio _ hinv hskey rfl hcount1 hncmp hnnd
      have hih := ih (done ++ [m]) (detStep cfg oracle fn st done.length m) hstep
      rw [show (done ++ [m]).length = done.length + 1 from by simp] at hih
      simpa using hih

/-- C10.  In one scan of `find_and_remove_duplicates`, every pair added to
`compared_pairs` and every pair added to `non_duplicates` is diagonal (the
candidate key equals the stored representative's key, agent.py:117-130);
consequently the matcher runs at most once per identity key, and every
third-or-later message with an already twice-occurred key is skipped and
never marked for deletion. -/
theorem c10_diagonal_scan (cfg : Config) (oracle : Nat → Bool) (fn : String)
    (pr : Nat) (pats0 : Patterns) (msgs : List Msg) :
    (∀ q ∈ (detRun cfg oracle fn pr pats0 msgs).compared, q.1 = q.2) ∧
    (∀ q : PyVal,
      containsKey q (detRun cfg oracle fn pr pats0 msgs).patterns.nonDuplicates = true →
      containsKey q pats0.nonDuplicates = true ∨ ∃ k : Key, q = pairVal k k) ∧
    (∀ k : Key, cmpCount k (msgs.zip (detRun cfg oracle fn pr pats0 msgs).events) ≤ 1) ∧
    (∀ i m, msgs.get? i = some m → 2 ≤ keyCount m.key (msgs.take i) →
      (∃ e, (detRun cfg oracle fn pr pats0 msgs).events.get? i = some e ∧
        Ev.isSkip e = true) ∧
      ∀ p ∈ (detRun cfg oracle fn pr pats0 msgs).marked, p.1 ≠ i) := by
  have hinit : DInv pats0 []
      { seen := [], marked := [], compared := [], patterns := pats0,
        prompts := pr, events := [] } := by
    refine ⟨?_, ?_, rfl, ?_, ?_, ?_, ?_, ?_, ?_, ?_⟩
    · intro k e h; simp [dictFind] at h
    · intro k; simp [dictFind, keyCount]
    · intro q hq; simp at hq
    · intro q hq; exact Or.inl hq
    · intro k; simp [cmpCount]
    · intro k hk; simp [cmpCount] at hk
    · intro k hk; simp [keyCount] at hk
    · intro p hp; simp at hp
    · intro i m hi; simp at hi
  have hrun : DInv pats0 msgs (detRun cfg oracle fn pr pats0 msgs) := by
    unfold detRun
    have h := detGo_dinv cfg oracle fn pats0 msgs [] _ hinit
    simpa using h
  obtain ⟨_, _, _, d4, d5, d6, _, _, _, d10⟩ := hrun
  exact ⟨d4, d5, d6, d10⟩

theorem c10_diagonal_scan_witness :
    msgsTriple.get? 2 = some (mkSample "hello world foo" 2) ∧
    2 ≤ keyCount (mkSample "hello world foo" 2).key (msgsTriple.take 2) ∧
    ((∃ e, (detRun cfgMain oracleNo "Inbox" 0 samplePatterns msgsTriple).events.get? 2 =
        some e ∧ Ev.isSkip e = true) ∧
      ∀ p ∈ (detRun cfgMain oracleNo "Inbox" 0 samplePatterns msgsTriple).marked,
        p.1 ≠ 2) :=
  ⟨rfl, by decide,
    (c10_diagonal_scan cfgMain oracleNo "Inbox" 0 samplePatterns msgsTriple).2.2.2 2
      (mkSample "hello world foo" 2) rfl (by decide)⟩


/-!  ## Idempotence of normalize_body (claim C6) -/

/-- No two adjacent spaces (the condition under which the whitespace
collapse leaves its input unchanged). -/
def noDoubleSpace : List Char → Bool
  | c1 :: c2 :: rest => !(c1 = ' ' && c2 = ' ') && noDoubleSpace (c2 :: rest)
  | _ => true

/-- Does `http` occur anywhere in the text? -/
def hasHttp : List Char → Bool
  | [] => false
  | c :: cs => startsWithSeq ['h', 't', 't', 'p'] (c :: cs) || hasHttp cs

/-- Every maximal `\w` run has length at least 3 (the shape of
`rmShort`'s output).  Fueled like the scanners. -/
def runsOKF : Nat → List Char → Bool
  | 0, _ => true
  | _, [] => true
  | fuel + 1, c :: cs =>
      if isWordChar c then
        decide (3 ≤ ((c :: cs).takeWhile isWordChar).length) &&
          runsOKF fuel (cs.dropWhile isWordChar)
      else runsOKF fuel cs

def runsOK (l : List Char) : Bool := runsOKF l.length l

theorem runsOKF_fuel : ∀ f1 f2 (l : List Char), l.length ≤ f1 → l.length ≤ f2 →
    runsOKF f1 l = runsOKF f2 l := by
  intro f1
  induction f1 with
  | zero =>
      intro f2 l h1 _
      have : l = [] := List.length_eq_zero.mp (Nat.le_zero.mp h1)
      subst this
      cases f2 <;> rfl
  | succ f ih =>
      intro f2 l h1 h2
      match l, f2 with
      | [], g => cases g <;> rfl
      | c :: cs, g + 1 =>
          simp only [runsOKF]
          simp only [List.length_cons] at h1 h2
          have hdl := (List.dropWhile_sublist (l := cs) isWordChar).length_le
          split
          · rw [ih g (cs.dropWhile isWordChar) (by omega) (by omega)]
          · rw [ih g cs (by omega) (by omega)]

theorem runsOK_nil : runsOK [] = true := rfl

theorem runsOK_cons (c : Char) (cs : List Char) :
    runsOK (c :: cs) =
      if isWordChar c then
        decide (3 ≤ ((c :: cs).takeWhile isWordChar).length) &&
          runsOK (cs.dropWhile isWordChar)
      else runsOK cs := by
  show runsOKF (c :: cs).length (c :: cs) = _
  simp only [List.length_cons, runsOKF]
  have hdl := (List.dropWhile_sublist (l := cs) isWordChar).length_le
  split
  · rw [runsOKF_fuel cs.length _ _ (by omega) le_rfl]
    rfl
  · rfl

/-- The character class of a fully normalized body: lowercase letter, digit,
or space. -/
def isLowerSp (c : Char) : Bool :=
  isDigitCh c || ('a' ≤ c && c ≤ 'z') || c = ' '

theorem char_toNat_ofNat (n : Nat) (h : n < 55296) : (Char.ofNat n).toNat = n := by
  unfold Char.ofNat
  rw [dif_pos (Or.inl h)]
  exact rfl

theorem asciiLower_eq_self (c : Char) (h : ('A' ≤ c && c ≤ 'Z') = false) :
    asciiLower c = c := by
  unfold asciiLower
  rw [if_neg (by simp [h])]

theorem not_upper_of_lower (c : Char) (h1 : 'a' ≤ c) :
    ('A' ≤ c && c ≤ 'Z') = false := by
  apply Bool.eq_false_iff.mpr
  intro habs
  simp only [Bool.and_eq_true, decide_eq_true_eq] at habs
  have g1 : ('a').toNat ≤ c.toNat := h1
  have g2 : c.toNat ≤ ('Z').toNat := habs.2
  have e1 : ('a').toNat = 97 := by decide
  have e2 : ('Z').toNat = 90 := by decide
  omega

theorem not_upper_of_digit (c : Char) (h1 : c ≤ '9') :
    ('A' ≤ c && c ≤ 'Z') = false := by
  apply Bool.eq_false_iff.mpr
  intro habs
  simp only [Bool.and_eq_true, decide_eq_true_eq] at habs
  have g1 : c.toNat ≤ ('9').toNat := h1
  have g2 : ('A').toNat ≤ c.toNat := habs.1
  have e1 : ('9').toNat = 57 := by decide
  have e2 : ('A').toNat = 65 := by decide
  omega

theorem isLowerSp_lower (d : Char) (hd : (isAsciiAlnum d || d = ' ') = true) :
    isLowerSp (asciiLower d) = true := by
  simp only [isAsciiAlnum, Bool.or_eq_true, Bool.and_eq_true, decide_eq_true_eq] at hd
  rcases hd with ((⟨u1, u2⟩ | ⟨u1, u2⟩) | ⟨u1, u2⟩) | hsp
  · -- lowercase letter: unchanged
    rw [asciiLower_eq_self d (not_upper_of_lower d u1)]
    simp only [isLowerSp, Bool.or_eq_true, Bool.and_eq_true, decide_eq_true_eq]
    tauto
  · -- uppercase letter: shifted into the lowercase range
    have hcond : ('A' ≤ d && d ≤ 'Z') = true := by
      simp only [Bool.and_eq_true, decide_eq_true_eq]
      exact ⟨u1, u2⟩
    have g1 : ('A').toNat ≤ d.toNat := u1
    have g2 : d.toNat ≤ ('Z').toNat := u2
    have e1 : ('A').toNat = 65 := by decide
    have e2 : ('Z').toNat = 90 := by decide
    have hv : d.toNat + 32 < 55296 := by omega
    have ht := char_toNat_ofNat (d.toNat + 32) hv
    unfold asciiLower
    rw [if_pos hcond]
    simp only [isLowerSp, Bool.or_eq_true, Bool.and_eq_true, decide_eq_true_eq]
    left
    right
    constructor
    · show ('a').toNat ≤ (Char.ofNat (d.toNat + 32)).toNat
      rw [ht]
      have : ('a').toNat = 97 := by decide
      omega
    · show (Char.ofNat (d.toNat + 32)).toNat ≤ ('z').toNat
      rw [ht]
      have : ('z').toNat = 122 := by decide
      omega
  · -- digit: unchanged
    rw [asciiLower_eq_self d (not_upper_of_digit d u2)]
    simp only [isLowerSp, isDigitCh, Bool.or_eq_true, Bool.and_eq_true,
      decide_eq_true_eq]
    tauto
  · subst hsp
    decide

theorem asciiLower_id_isLowerSp (c : Char) (h : isLowerSp c = true) :
    asciiLower c = c := by
  simp only [isLowerSp, isDigitCh, Bool.or_eq_true, Bool.and_eq_true,
    decide_eq_true_eq] at h
  rcases h with (⟨u1, u2⟩ | ⟨u1, u2⟩) | hsp
  · exact asciiLower_eq_self c (not_upper_of_digit c u2)
  · exact asciiLower_eq_self c (not_upper_of_lower c u1)
  · subst hsp
    decide

theorem isLowerSp_alnumsp (c : Char) (h : isLowerSp c = true) :
    (isAsciiAlnum c || isPySpace c) = true := by
  simp only [isLowerSp, isDigitCh, Bool.or_eq_true, Bool.and_eq_true,
    decide_eq_true_eq] at h
  simp only [isAsciiAlnum, isPySpace, Bool.or_eq_true, Bool.and_eq_true,
    decide_eq_true_eq]
  tauto

theorem isLowerSp_space (c : Char) (h1 : isLowerSp c = true)
    (h2 : isPySpace c = true) : c = ' ' := by
  simp only [isPySpace, Bool.or_eq_true, decide_eq_true_eq] at h2
  rcases h2 with ((((h | h) | h) | h) | h) | h <;> subst h
  · rfl
  · exact absurd h1 (by decide)
  · exact absurd h1 (by decide)
  · exact absurd h1 (by decide)
  · exact absurd h1 (by decide)
  · exact absurd h1 (by decide)

theorem space_not_word (c : Char) (h : isPySpace c = true) : isWordChar c = false := by
  simp only [isPySpace, Bool.or_eq_true, decide_eq_true_eq] at h
  rcases h with ((((h | h) | h) | h) | h) | h <;> subst h <;> decide



theorem matchTS_dash {l : List Char} (h : matchTS l = true) : '-' ∈ l := by
  unfold matchTS at h
  split at h
  · rename_i c1 c2 c3 c4 c5 c6 c7 c8 c9 c10 c11 c12 c13 c14 c15 c16 c17 c18 c19 rest
    simp only [Bool.and_eq_true, decide_eq_true_eq] at h
    have hc5 : c5 = '-' := h.1.1.1.1.1.1.1.1.1.1.1.1.1.1.2
    subst hc5
    simp
  · simp at h

theorem rmTS_id : ∀ (l : List Char), '-' ∉ l → rmTS l = l := by
  intro l
  induction l with
  | nil => intro _; rfl
  | cons c cs ih =>
      intro hd
      rw [rmTS_cons]
      have hm : ¬ matchTS (c :: cs) = true := fun habs => hd (matchTS_dash habs)
      rw [if_neg hm, ih (fun hmem => hd (List.mem_cons_of_mem c hmem))]

theorem noDoubleSpace_head (c d : Char) (ds : List Char)
    (h : noDoubleSpace (c :: d :: ds) = true) : ¬ (c = ' ' ∧ d = ' ') := by
  rintro ⟨h1, h2⟩
  subst h1
  subst h2
  simp [noDoubleSpace] at h

theorem noDoubleSpace_tail (c : Char) (cs : List Char)
    (h : noDoubleSpace (c :: cs) = true) : noDoubleSpace cs = true := by
  cases cs with
  | nil => rfl
  | cons d ds =>
      simp only [noDoubleSpace, Bool.and_eq_true] at h
      exact h.2

theorem collapseWS_id : ∀ (l : List Char),
    (∀ c ∈ l, isPySpace c = true → c = ' ') → noDoubleSpace l = true →
    collapseWS l = l := by
  intro l
  induction l with
  | nil => intro _ _; rfl
  | cons c cs ih =>
      intro hsp hnd
      rw [collapseWS_cons]
      by_cases hc : isPySpace c = true
      · rw [if_pos hc]
        have hc' : c = ' ' := hsp c (List.mem_cons_self c cs) hc
        have hdrop : cs.dropWhile isPySpace = cs := by
          cases cs with
          | nil => rfl
          | cons d ds =>
              have hdns : ¬ isPySpace d = true := by
                intro hdp
                exact noDoubleSpace_head c d ds hnd
                  ⟨hc', hsp d (by simp) hdp⟩
              rw [List.dropWhile_cons, if_neg hdns]
        rw [hdrop, hc']
        congr 1
        exact ih (fun a ha hpa => hsp a (List.mem_cons_of_mem c ha) hpa)
          (noDoubleSpace_tail c cs hnd)
      · rw [if_neg hc]
        congr 1
        exact ih (fun a ha hpa => hsp a (List.mem_cons_of_mem c ha) hpa)
          (noDoubleSpace_tail c cs hnd)

theorem httpLen_shape (l : List Char) (h : ¬ httpLen l = 0) :
    ∃ rest, l = 'h' :: 't' :: 't' :: 'p' :: rest := by
  unfold httpLen at h
  split at h
  · rename_i rest
    exact ⟨rest, rfl⟩
  · exact absurd rfl h

theorem rmURL_id : ∀ (l : List Char), hasHttp l = false → rmURL l = l := by
  intro l
  induction l with
  | nil => intro _; rfl
  | cons c cs ih =>
      intro hh
      rw [rmURL_cons]
      have h0 : httpLen (c :: cs) = 0 := by
        by_contra hne
        obtain ⟨rest, heq⟩ := httpLen_shape _ hne
        rw [heq] at hh
        simp [hasHttp, startsWithSeq] at hh
      rw [if_pos h0]
      have hh' : hasHttp cs = false := by
        have hstep : hasHttp (c :: cs) =
            (startsWithSeq ['h', 't', 't', 'p'] (c :: cs) || hasHttp cs) := rfl
        rw [hstep] at hh
        exact (Bool.or_eq_false_iff.mp hh).2
      rw [ih hh']

theorem lowerAll_id : ∀ (l : List Char), (∀ c ∈ l, asciiLower c = c) →
    lowerAll l = l := by
  intro l
  induction l with
  | nil => intro _; rfl
  | cons c cs ih =>
      intro h
      show (c :: cs).map asciiLower = c :: cs
      rw [List.map_cons, h c (by simp)]
      congr 1
      exact ih (fun a ha => h a (by simp [ha]))

theorem rmSpecial_id (l : List Char)
    (h : ∀ c ∈ l, (isAsciiAlnum c || isPySpace c) = true) : rmSpecial l = l :=
  List.filter_eq_self.mpr h

theorem rmShort_subset : ∀ (n : Nat) (l : List Char), l.length ≤ n →
    ∀ c ∈ rmShort l, c ∈ l := by
  intro n
  induction n with
  | zero =>
      intro l h c hc
      have : l = [] := List.length_eq_zero.mp (Nat.le_zero.mp h)
      subst this
      simpa [rmShort_nil] using hc
  | succ n ih =>
      intro l h c hc
      match l with
      | [] => simpa [rmShort_nil] using hc
      | d :: ds =>
          rw [rmShort_cons] at hc
          simp only [List.length_cons] at h
          by_cases hw : isWordChar d = true
          · rw [if_pos hw] at hc
            have hdd : (d :: ds).dropWhile isWordChar = ds.dropWhile isWordChar := by
              simp [List.dropWhile_cons, hw]
            have hdl := (List.dropWhile_sublist (l := ds) isWordChar).length_le
            rcases List.mem_append.mp hc with h1 | h1
            · have h2 : c ∈ (d :: ds).takeWhile isWordChar := by
                rcases (em (((d :: ds).takeWhile isWordChar).length ≤ 2)) with he | he
                · rw [if_pos he] at h1
                  simp at h1
                · rw [if_neg he] at h1
                  exact h1
              exact (List.takeWhile_sublist _).subset h2
            · have h2 := ih ((d :: ds).dropWhile isWordChar)
                (by rw [hdd]; omega) c h1
              exact (List.dropWhile_sublist _).subset h2
          · rw [if_neg hw] at hc
            rcases List.mem_cons.mp hc with h1 | h1
            · exact h1 ▸ List.mem_cons_self d ds
            · exact List.mem_cons_of_mem d (ih ds (by omega) c h1)

theorem stripChars_subset (l : List Char) : ∀ c ∈ stripChars l, c ∈ l := by
  intro c hc
  unfold stripChars at hc
  have h1 := List.mem_reverse.mp hc
  have h2 := (List.dropWhile_sublist _).subset h1
  have h3 := List.mem_reverse.mp h2
  exact (List.dropWhile_sublist _).subset h3

theorem rmURL_subset : ∀ (n : Nat) (l : List Char), l.length ≤ n →
    ∀ c ∈ rmURL l, c ∈ l := by
  intro n
  induction n with
  | zero =>
      intro l h c hc
      have : l = [] := List.length_eq_zero.mp (Nat.le_zero.mp h)
      subst this
      simpa [rmURL_nil] using hc
  | succ n ih =>
      intro l h c hc
      match l with
      | [] => simpa [rmURL_nil] using hc
      | d :: ds =>
          rw [rmURL_cons] at hc
          simp only [List.length_cons] at h
          by_cases h0 : httpLen (d :: ds) = 0
          · rw [if_pos h0] at hc
            rcases List.mem_cons.mp hc with h1 | h1
            · exact h1 ▸ List.mem_cons_self d ds
            · exact List.mem_cons_of_mem d (ih ds (by omega) c h1)
          · rw [if_neg h0] at hc
            have hk : 1 ≤ httpLen (d :: ds) := by omega
            have h2 := ih ((d :: ds).drop (httpLen (d :: ds)))
              (by simp only [List.length_drop, List.length_cons]; omega) c hc
            exact List.drop_subset _ _ h2

theorem collapseWS_space : ∀ (n : Nat) (l : List Char), l.length ≤ n →
    ∀ c ∈ collapseWS l, isPySpace c = true → c = ' ' := by
  intro n
  induction n with
  | zero =>
      intro l h c hc
      have : l = [] := List.length_eq_zero.mp (Nat.le_zero.mp h)
      subst this
      simp [collapseWS_nil] at hc
  | succ n ih =>
      intro l h c hc hpc
      match l with
      | [] => simp [collapseWS_nil] at hc
      | d :: ds =>
          rw [collapseWS_cons] at hc
          simp only [List.length_cons] at h
          by_cases hd : isPySpace d = true
          · rw [if_pos hd] at hc
            rcases List.mem_cons.mp hc with h1 | h1
            · exact h1
            · have hdl := (List.dropWhile_sublist (l := ds) isPySpace).length_le
              exact ih (ds.dropWhile isPySpace) (by omega) c h1 hpc
          · rw [if_neg hd] at hc
            rcases List.mem_cons.mp hc with h1 | h1
            · exact absurd (h1 ▸ hpc) hd
            · exact ih ds (by omega) c h1 hpc


theorem takeWhile_append_nil (p : Char → Bool) : ∀ (a t : List Char),
    t.takeWhile p = [] → (a ++ t).takeWhile p = a.takeWhile p := by
  intro a
  induction a with
  | nil => intro t ht; simpa using ht
  | cons c as ih =>
      intro t ht
      show ((c :: (as ++ t)).takeWhile p) = _
      rw [List.takeWhile_cons, List.takeWhile_cons]
      by_cases hp : p c = true
      · rw [if_pos hp, if_pos hp, ih t ht]
      · rw [if_neg hp, if_neg hp]

theorem dropWhile_append_all (p : Char → Bool) : ∀ (a t : List Char),
    (∀ x ∈ a, p x = true) → (a ++ t).dropWhile p = t.dropWhile p := by
  intro a
  induction a with
  | nil => intro t _; rfl
  | cons c as ih =>
      intro t ha
      show ((c :: (as ++ t)).dropWhile p) = _
      rw [List.dropWhile_cons, if_pos (ha c (by simp))]
      exact ih t (fun x hx => ha x (by simp [hx]))

theorem takeWhile_nil_dropWhile (p : Char → Bool) (t : List Char)
    (ht : t.takeWhile p = []) : t.dropWhile p = t := by
  cases t with
  | nil => rfl
  | cons d ds =>
      rw [List.takeWhile_cons] at ht
      by_cases hp : p d = true
      · rw [if_pos hp] at ht
        simp at ht
      · rw [List.dropWhile_cons, if_neg hp]

theorem dropWhile_head_false (p : Char → Bool) : ∀ (l : List Char) (d : Char)
    (ds : List Char), l.dropWhile p = d :: ds → p d = false := by
  intro l
  induction l with
  | nil => intro d ds h; simp at h
  | cons c cs ih =>
      intro d ds h
      rw [List.dropWhile_cons] at h
      by_cases hp : p c = true
      · rw [if_pos hp] at h
        exact ih d ds h
      · rw [if_neg hp] at h
        have hc : c = d := (List.cons.injEq _ _ _ _).mp h |>.1
        rw [← hc]
        exact Bool.eq_false_iff.mpr hp

theorem dropWhile_takeWhile_nil (p : Char → Bool) (l : List Char) :
    (l.dropWhile p).takeWhile p = [] := by
  rcases hz : l.dropWhile p with _ | ⟨d, ds⟩
  · rfl
  · rw [List.takeWhile_cons, if_neg (by simp [dropWhile_head_false p l d ds hz])]

theorem dropWhile_append_pos (p : Char → Bool) : ∀ (a b : List Char) (d : Char)
    (ds : List Char), a.dropWhile p = d :: ds →
    (a ++ b).dropWhile p = d :: (ds ++ b) := by
  intro a
  induction a with
  | nil => intro b d ds ha; simp at ha
  | cons c as ih =>
      intro b d ds ha
      rw [List.dropWhile_cons] at ha
      show ((c :: (as ++ b)).dropWhile p) = _
      rw [List.dropWhile_cons]
      by_cases hp : p c = true
      · rw [if_pos hp] at ha ⊢
        exact ih b d ds ha
      · rw [if_neg hp] at ha ⊢
        have h1 : c = d := (List.cons.injEq _ _ _ _).mp ha |>.1
        have h2 : as = ds := (List.cons.injEq _ _ _ _).mp ha |>.2
        rw [h1, h2]

theorem dropWhile_idem (p : Char → Bool) : ∀ (l : List Char),
    (l.dropWhile p).dropWhile p = l.dropWhile p := by
  intro l
  induction l with
  | nil => rfl
  | cons c cs ih =>
      rw [List.dropWhile_cons]
      by_cases hp : p c = true
      · rw [if_pos hp]
        exact ih
      · rw [if_neg hp, List.dropWhile_cons, if_neg hp]

theorem dropWhile_eq_self_head (p : Char → Bool) (c : Char) (cs : List Char)
    (h : (c :: cs).dropWhile p = c :: cs) : p c = false := by
  rcases hpc : p c with _ | _
  · rfl
  · rw [List.dropWhile_cons, if_pos hpc] at h
    have hle := (List.dropWhile_sublist (l := cs) p).length_le
    have hlen := congrArg List.length h
    simp only [List.length_cons] at hlen
    omega

theorem runsOK_append_run (w t : List Char) (hw : ∀ a ∈ w, isWordChar a = true)
    (h3 : 3 ≤ w.length) (hht : t.takeWhile isWordChar = [])
    (hr : runsOK t = true) : runsOK (w ++ t) = true := by
  match w with
  | [] => simp at h3
  | c :: ws =>
      have hcw : isWordChar c = true := hw c (by simp)
      rw [show (c :: ws) ++ t = c :: (ws ++ t) from rfl, runsOK_cons, if_pos hcw]
      have htw : (c :: (ws ++ t)).takeWhile isWordChar = c :: ws := by
        rw [show c :: (ws ++ t) = (c :: ws) ++ t from rfl,
          takeWhile_append_nil isWordChar (c :: ws) t hht]
        exact List.takeWhile_eq_self_iff.mpr hw
      have hdw : (ws ++ t).dropWhile isWordChar = t := by
        rw [dropWhile_append_all isWordChar ws t (fun x hx => hw x (by simp [hx]))]
        exact takeWhile_nil_dropWhile isWordChar t hht
      rw [htw, hdw, hr]
      simp only [List.length_cons, Bool.and_true, decide_eq_true_eq]
      simp only [List.length_cons] at h3
      omega

theorem rmShort_head_nonword (z : List Char)
    (hz : z.takeWhile isWordChar = []) :
    (rmShort z).takeWhile isWordChar = [] := by
  cases z with
  | nil => rfl
  | cons d ds =>
      rw [List.takeWhile_cons] at hz
      by_cases hp : isWordChar d = true
      · rw [if_pos hp] at hz
        simp at hz
      · rw [rmShort_cons, if_neg hp, List.takeWhile_cons, if_neg hp]

theorem rmShort_runsOK_aux : ∀ (n : Nat) (l : List Char), l.length ≤ n →
    runsOK (rmShort l) = true := by
  intro n
  induction n with
  | zero =>
      intro l h
      have : l = [] := List.length_eq_zero.mp (Nat.le_zero.mp h)
      subst this
      rfl
  | succ n ih =>
      intro l h
      match l with
      | [] => rfl
      | c :: cs =>
          rw [rmShort_cons]
          simp only [List.length_cons] at h
          by_cases hw : isWordChar c = true
          · rw [if_pos hw]
            have hd : (c :: cs).dropWhile isWordChar = cs.dropWhile isWordChar := by
              simp [List.dropWhile_cons, hw]
            have hdl := (List.dropWhile_sublist (l := cs) isWordChar).length_le
            by_cases hlen : ((c :: cs).takeWhile isWordChar).length ≤ 2
            · rw [if_pos hlen]
              simp only [List.nil_append]
              rw [hd]
              exact ih (cs.dropWhile isWordChar) (by omega)
            · rw [if_neg hlen]
              rw [hd]
              apply runsOK_append_run
              · intro a ha
                exact List.mem_takeWhile_imp ha
              · omega
              · rw [← hd]
                exact rmShort_head_nonword _ (dropWhile_takeWhile_nil isWordChar (c :: cs))
              · exact ih (cs.dropWhile isWordChar) (by omega)
          · rw [if_neg hw, runsOK_cons, if_neg hw]
            exact ih cs (by omega)

theorem rmShort_runsOK (l : List Char) : runsOK (rmShort l) = true :=
  rmShort_runsOK_aux l.length l le_rfl

theorem rmShort_id_aux : ∀ (n : Nat) (l : List Char), l.length ≤ n →
    runsOK l = true → rmShort l = l := by
  intro n
  induction n with
  | zero =>
      intro l h _
      have : l = [] := List.length_eq_zero.mp (Nat.le_zero.mp h)
      subst this
      rfl
  | succ n ih =>
      intro l h hr
      match l with
      | [] => rfl
      | c :: cs =>
          rw [rmShort_cons]
          simp only [List.length_cons] at h
          rw [runsOK_cons] at hr
          by_cases hw : isWordChar c = true
          · rw [if_pos hw] at hr ⊢
            simp only [Bool.and_eq_true, decide_eq_true_eq] at hr
            obtain ⟨hr1, hr2⟩ := hr
            rw [if_neg (by omega)]
            have hd : (c :: cs).dropWhile isWordChar = cs.dropWhile isWordChar := by
              simp [List.dropWhile_cons, hw]
            have hdl := (List.dropWhile_sublist (l := cs) isWordChar).length_le
            rw [hd, ih (cs.dropWhile isWordChar) (by omega) hr2, ← hd]
            exact List.takeWhile_append_dropWhile isWordChar (c :: cs)
          · rw [if_neg hw] at hr ⊢
            rw [ih cs (by omega) hr]

theorem rmShort_id (l : List Char) (h : runsOK l = true) : rmShort l = l :=
  rmShort_id_aux l.length l le_rfl h

theorem runsOK_dropWhile_sp : ∀ (l : List Char), runsOK l = true →
    runsOK (l.dropWhile isPySpace) = true := by
  intro l
  induction l with
  | nil => intro h; exact h
  | cons c cs ih =>
      intro h
      rw [List.dropWhile_cons]
      by_cases hp : isPySpace c = true
      · rw [if_pos hp]
        apply ih
        rw [runsOK_cons, if_neg (by simp [space_not_word c hp])] at h
        exact h
      · rw [if_neg hp]
        exact h

theorem runsOK_append_nonword_right : ∀ (n : Nat) (l t : List Char),
    l.length ≤ n → (∀ a ∈ t, isWordChar a = false) →
    runsOK (l ++ t) = true → runsOK l = true := by
  intro n
  induction n with
  | zero =>
      intro l t h _ _
      have : l = [] := List.length_eq_zero.mp (Nat.le_zero.mp h)
      subst this
      rfl
  | succ n ih =>
      intro l t hlen htw hr
      match l with
      | [] => rfl
      | c :: cs =>
          simp only [List.length_cons] at hlen
          rw [show (c :: cs) ++ t = c :: (cs ++ t) from rfl, runsOK_cons] at hr
          rw [runsOK_cons]
          have httw : t.takeWhile isWordChar = [] := by
            cases t with
            | nil => rfl
            | cons b bs =>
                rw [List.takeWhile_cons, if_neg (by simp [htw b (by simp)])]
          by_cases hw : isWordChar c = true
          · rw [if_pos hw] at hr ⊢
            simp only [Bool.and_eq_true, decide_eq_true_eq] at hr ⊢
            obtain ⟨hr1, hr2⟩ := hr
            have htke : (c :: (cs ++ t)).takeWhile isWordChar =
                (c :: cs).takeWhile isWordChar := by
              rw [show c :: (cs ++ t) = (c :: cs) ++ t from rfl]
              exact takeWhile_append_nil isWordChar (c :: cs) t httw
            constructor
            · rw [htke] at hr1
              exact hr1
            · rcases hz : cs.dropWhile isWordChar with _ | ⟨d, ds⟩
              · rfl
              · have hde := dropWhile_append_pos isWordChar cs t d ds hz
                rw [hde] at hr2
                have hdl : (cs.dropWhile isWordChar).length ≤ cs.length :=
                  (List.dropWhile_sublist (l := cs) isWordChar).length_le
                rw [hz] at hdl
                simp only [List.length_cons] at hdl
                exact ih (d :: ds) t (by simp only [List.length_cons]; omega) htw
                  (by rw [show (d :: ds) ++ t = d :: (ds ++ t) from rfl]; exact hr2)
          · rw [if_neg hw] at hr ⊢
            exact ih cs t (by omega) htw hr

theorem strip_decomp (l : List Char) :
    l.dropWhile isPySpace = stripChars l ++
      ((l.dropWhile isPySpace).reverse.takeWhile isPySpace).reverse := by
  have hsplit := List.takeWhile_append_dropWhile isPySpace (l.dropWhile isPySpace).reverse
  have hmain : ((l.dropWhile isPySpace).reverse.dropWhile isPySpace).reverse ++
      ((l.dropWhile isPySpace).reverse.takeWhile isPySpace).reverse =
      l.dropWhile isPySpace := by
    rw [← List.reverse_append, hsplit, List.reverse_reverse]
  exact hmain.symm

theorem strip_runsOK (l : List Char) (h : runsOK l = true) :
    runsOK (stripChars l) = true := by
  have h1 : runsOK (l.dropWhile isPySpace) = true := runsOK_dropWhile_sp l h
  rw [strip_decomp l] at h1
  apply runsOK_append_nonword_right (stripChars l).length (stripChars l)
    ((l.dropWhile isPySpace).reverse.takeWhile isPySpace).reverse le_rfl _ h1
  intro a ha
  have ham := List.mem_reverse.mp ha
  exact space_not_word a (List.mem_takeWhile_imp ham)

theorem stripChars_idem (l : List Char) : stripChars (stripChars l) = stripChars l := by
  have hyd : (stripChars l).dropWhile isPySpace = stripChars l := by
    rcases hsc : stripChars l with _ | ⟨c, cs⟩
    · rfl
    · rw [List.dropWhile_cons]
      have hdec := strip_decomp l
      rw [hsc] at hdec
      have hu := dropWhile_idem isPySpace l
      rw [hdec] at hu
      have hhead := dropWhile_eq_self_head isPySpace c
        (cs ++ ((l.dropWhile isPySpace).reverse.takeWhile isPySpace).reverse)
        (by simpa using hu)
      rw [if_neg (by simp [hhead])]
  show (((stripChars l).dropWhile isPySpace).reverse.dropWhile isPySpace).reverse =
    stripChars l
  rw [hyd]
  have hrev : (stripChars l).reverse =
      (l.dropWhile isPySpace).reverse.dropWhile isPySpace := by
    show ((((l.dropWhile isPySpace).reverse.dropWhile isPySpace).reverse).reverse) = _
    rw [List.reverse_reverse]
  rw [hrev, dropWhile_idem, ← hrev, List.reverse_reverse]


theorem normP1 (x : String) : ∀ c ∈ (normalize_body x).data, isLowerSp c = true := by
  intro c hc
  unfold normalize_body at hc
  by_cases hx : x = ""
  · rw [if_pos hx] at hc
    simp at hc
  · rw [if_neg hx] at hc
    have hc2 := stripChars_subset _ c hc
    have hc3 := rmShort_subset
      (lowerAll (rmSpecial (rmURL (collapseWS (rmTS x.data))))).length _ le_rfl c hc2
    obtain ⟨d, hd, hcd⟩ := List.mem_map.mp hc3
    have hdw : (isAsciiAlnum d || isPySpace d) = true := by
      have hdw0 := List.of_mem_filter (show d ∈ List.filter
        (fun c => isAsciiAlnum c || isPySpace c)
        (rmURL (collapseWS (rmTS x.data))) from hd)
      simpa using hdw0
    have hdmem : d ∈ rmURL (collapseWS (rmTS x.data)) := List.mem_of_mem_filter hd
    have hd' : (isAsciiAlnum d || d = ' ') = true := by
      simp only [Bool.or_eq_true] at hdw
      rcases hdw with ha | hs
      · simp [ha]
      · have hdc := rmURL_subset (collapseWS (rmTS x.data)).length _ le_rfl d hdmem
        have hds := collapseWS_space (rmTS x.data).length _ le_rfl d hdc hs
        rw [hds]
        decide
    rw [← hcd]
    exact isLowerSp_lower d hd'

theorem normRunsOK (x : String) : runsOK (normalize_body x).data = true := by
  unfold normalize_body
  by_cases hx : x = ""
  · rw [if_pos hx]
    rfl
  · rw [if_neg hx]
    exact strip_runsOK _ (rmShort_runsOK _)

theorem normStripped (x : String) :
    stripChars (normalize_body x).data = (normalize_body x).data := by
  unfold normalize_body
  by_cases hx : x = ""
  · rw [if_pos hx]
    rfl
  · rw [if_neg hx]
    exact stripChars_idem _

/-- C6 (amended).  `normalize_body` is idempotent on every input whose
normalized form has no two adjacent spaces and no occurrence of `http`: for
such `x`, `normalize_body (normalize_body x) = normalize_body x`.  (On
arbitrary inputs idempotence fails: removing a short word keeps both
surrounding spaces, and only a second pass collapses them.) -/
theorem c6_normalize_idem (x : String)
    (hnd : noDoubleSpace (normalize_body x).data = true)
    (hht : hasHttp (normalize_body x).data = false) :
    normalize_body (normalize_body x) = normalize_body x := by
  have hP1 := normP1 x
  have h1 : rmTS (normalize_body x).data = (normalize_body x).data :=
    rmTS_id _ (fun hdash => absurd (hP1 '-' hdash) (by decide))
  have h2 : collapseWS (normalize_body x).data = (normalize_body x).data :=
    collapseWS_id _ (fun c hc hpc => isLowerSp_space c (hP1 c hc) hpc) hnd
  have h3 : rmURL (normalize_body x).data = (normalize_body x).data :=
    rmURL_id _ hht
  have h4 : rmSpecial (normalize_body x).data = (normalize_body x).data :=
    rmSpecial_id _ (fun c hc => isLowerSp_alnumsp c (hP1 c hc))
  have h5 : lowerAll (normalize_body x).data = (normalize_body x).data :=
    lowerAll_id _ (fun c hc => asciiLower_id_isLowerSp c (hP1 c hc))
  have h6 : rmShort (normalize_body x).data = (normalize_body x).data :=
    rmShort_id _ (normRunsOK x)
  have h7 : stripChars (normalize_body x).data = (normalize_body x).data :=
    normStripped x
  by_cases hy : normalize_body x = ""
  · rw [hy]
    rfl
  · revert h1 h2 h3 h4 h5 h6 h7 hy
    generalize normalize_body x = Y
    intro h1 h2 h3 h4 h5 h6 h7 hy
    unfold normalize_body
    rw [if_neg hy, h1, h2, h3, h4, h5, h6, h7]

theorem c6_normalize_idem_witness :
    noDoubleSpace (normalize_body "hello world").data = true ∧
    hasHttp (normalize_body "hello world").data = false ∧
    normalize_body (normalize_body "hello world") = normalize_body "hello world" :=
  ⟨by decide, by decide, c6_normalize_idem "hello world" (by decide) (by decide)⟩


end EmailCleanup
